import Mathlib

/-!
Verification of the kustomize patch transformer plugins
(PatchTransformer.go and PatchStrategicMergeTransformer.go).

The resource field-tree, the strategic-merge algorithm, the RFC6902
operation engine and the resource-collection primitives live outside the
two source files (they are collaborators from the wider repository); they
are modelled here from the specification, as indicated on each definition.
The control flow of Config, Transform, transformStrategicMerge,
transformJson6902, applySMPatch, applyJson6902Patch and
jsonPatchFromBytes is translated directly from the two source files.
-/

set_option maxHeartbeats 1600000
set_option linter.unusedVariables false
set_option linter.unreachableTactic false
set_option linter.unnecessarySeqFocus false
set_option linter.unusedTactic false
set_option linter.unnecessarySimpa false

namespace Kustomize

/-- Modelled from the spec: the generic field-tree held by a resource
(recursive value: null, bool, number, string, ordered list, ordered map
with unique keys).  The JSON/YAML codec itself is an external
collaborator; patches and resources arrive already parsed as values. -/
inductive Value where
  | null : Value
  | bool (b : Bool) : Value
  | num (n : Int) : Value
  | str (s : String) : Value
  | arr (xs : List Value) : Value
  | obj (fs : List (String × Value)) : Value

/-- Test for the delete-directive sentinel (the null value). -/
def isNull : Value → Bool
  | Value.null => true
  | _ => false

/-- Keys of an ordered map of fields. -/
def keysF (fs : List (String × Value)) : List String :=
  fs.map Prod.fst

/-- Lookup of the first binding of a key in an ordered field map. -/
def lookupF : List (String × Value) → String → Option Value
  | [], _ => none
  | (k', v) :: rest, k => if k' = k then some v else lookupF rest k

/-- Removal of a key from an ordered field map. -/
def eraseF (fs : List (String × Value)) (k : String) : List (String × Value) :=
  fs.filter (fun kv => ¬(kv.1 = k))

/-- Replacement of the value bound to a key, keeping the map order;
the key is appended when absent. -/
def setF : List (String × Value) → String → Value → List (String × Value)
  | [], k, v => [(k, v)]
  | (k', v') :: rest, k, v =>
    if k' = k then (k, v) :: rest else (k', v') :: setF rest k v

/-- Membership of a key in an ordered field map, as a boolean. -/
def keyMem (k : String) : List (String × Value) → Bool
  | [] => false
  | (k', _) :: rest => k' == k || keyMem k rest

/-- Uniqueness of the keys of one map level, as a boolean. -/
def nodupKeysB : List (String × Value) → Bool
  | [] => true
  | (k, _) :: rest => !(keyMem k rest) && nodupKeysB rest

/-- Modelled from the spec: the merge key declared by convention, the
field whose scalar value aligns corresponding list elements across two
documents during strategic merge of keyed lists. -/
def mergeKey : String := "name"

/-- A scalar merge-key value: keyed-list elements are aligned by a
boolean, number or string value of the conventional merge-key field. -/
inductive SKey where
  | b (x : Bool) : SKey
  | n (x : Int) : SKey
  | s (x : String) : SKey
deriving DecidableEq

/-- The scalar merge-key reading of a value: boolean, number and string
values identify an element, anything else does not. -/
def skeyOf : Value → Option SKey
  | Value.bool x => some (SKey.b x)
  | Value.num x => some (SKey.n x)
  | Value.str x => some (SKey.s x)
  | _ => none

/-- The merge-key value of a list element: present exactly when the
element is a map binding the conventional merge key to a scalar. -/
def elemKey : Value → Option SKey
  | Value.obj fs =>
    match lookupF fs mergeKey with
    | some kv0 => skeyOf kv0
    | none => none
  | _ => none

/-- A keyed list: every element carries a merge-key value. -/
def keyedList (xs : List Value) : Bool :=
  xs.all (fun x => (elemKey x).isSome)

/-- Membership of a merge-key value among the elements of a list. -/
def elemMem (kv : SKey) : List Value → Bool
  | [] => false
  | x :: rest => (elemKey x == some kv) || elemMem kv rest

/-- Uniqueness of the merge-key values of one list level. -/
def nodupElemKeysB : List Value → Bool
  | [] => true
  | x :: rest =>
    (match elemKey x with
     | none => true
     | some kv => !(elemMem kv rest)) && nodupElemKeysB rest

/-- The first element of a list carrying a given merge-key value. -/
def lookupElem : List Value → SKey → Option Value
  | [], _ => none
  | x :: rest, kv => if elemKey x = some kv then some x else lookupElem rest kv

/-- Replacement of the first element carrying a given merge-key value,
keeping the list order; the value is appended when no element
matches. -/
def setElem : List Value → SKey → Value → List Value
  | [], _, v => [v]
  | x :: rest, kv, v =>
    if elemKey x = some kv then v :: rest else x :: setElem rest kv v

mutual

/-- Modelled from the spec: well-formedness of a field-tree, namely that
every ordered map in it has unique keys and every list has pairwise
distinct merge-key values among its keyed elements (the data-model
invariants behind ordered-map-with-unique-keys and merge-key
alignment). -/
def wfV : Value → Bool
  | Value.obj fs => nodupKeysB fs && wfFieldsB fs
  | Value.arr xs => nodupElemKeysB xs && wfArrB xs
  | _ => true

/-- Well-formedness of every value of a field map. -/
def wfFieldsB : List (String × Value) → Bool
  | [] => true
  | (_, v) :: rest => wfV v && wfFieldsB rest

/-- Well-formedness of every element of a list value. -/
def wfArrB : List Value → Bool
  | [] => true
  | v :: rest => wfV v && wfArrB rest

end

mutual

/-- Modelled from the spec: the strategic-merge algorithm (the legacy
typed-object strategy behind resource.Patch).  A patch field equal to the
delete-directive sentinel (null) removes the field; two nested maps merge
recursively key by key; two lists of keyed elements merge element-wise by
merge key, recursing into matched elements and appending unmatched new
elements; any other case replaces the resource value with the patch
value wholesale. -/
def smMerge : Value → Value → Value
  | Value.obj t, Value.obj p => Value.obj (smMergeFields t p)
  | Value.arr txs, Value.arr pxs =>
    if keyedList txs && keyedList pxs then Value.arr (smMergeList txs pxs)
    else Value.arr pxs
  | _, p => p
termination_by _ b => (sizeOf b, 0)

/-- Sequential processing of the fields of a strategic-merge patch into a
target field map, in patch order. -/
def smMergeFields : List (String × Value) → List (String × Value) → List (String × Value)
  | t, [] => t
  | t, (k, v) :: rest => smMergeFields (smMergeStep t k v) rest
termination_by _ p => (sizeOf p, 0)

/-- One strategic-merge patch field applied to a target field map. -/
def smMergeStep (t : List (String × Value)) (k : String) (v : Value) : List (String × Value) :=
  if isNull v then eraseF t k
  else
    match lookupF t k with
    | some old => setF t k (smMerge old v)
    | none => t ++ [(k, v)]
termination_by (sizeOf v, 1)

/-- Sequential processing of the elements of a keyed patch list into a
keyed target list, in patch order. -/
def smMergeList : List Value → List Value → List Value
  | txs, [] => txs
  | txs, pe :: rest => smMergeList (smElemStep txs pe) rest
termination_by _ p => (sizeOf p, 0)

/-- One keyed patch element applied to a target list: a target element
carrying the same merge-key value is merged in place, any other element
is appended. -/
def smElemStep (txs : List Value) (pe : Value) : List Value :=
  match elemKey pe with
  | none => txs ++ [pe]
  | some kv =>
    match lookupElem txs kv with
    | some te => setElem txs kv (smMerge te pe)
    | none => txs ++ [pe]
termination_by (sizeOf pe, 1)

end

example : smMergeFields [("a", Value.num 0)] [("a", Value.num 1)] = [("a", Value.num 1)] := by
  simp [smMergeFields, smMergeStep, smMerge, isNull, lookupF, setF]

example : smMergeFields [("a", Value.num 0), ("b", Value.num 2)] [("a", Value.null)] = [("b", Value.num 2)] := by
  simp [smMergeFields, smMergeStep, isNull, eraseF]

theorem lookupF_sizeOf {fs : List (String × Value)} {k : String} {v : Value}
    (h : lookupF fs k = some v) : sizeOf v < sizeOf fs := by
  induction fs with
  | nil => simp [lookupF] at h
  | cons kv rest ih =>
    match kv with
    | (k', v') =>
      simp only [lookupF] at h
      split at h
      · cases h
        simp only [List.cons.sizeOf_spec, Prod.mk.sizeOf_spec]
        omega
      · have := ih h
        simp only [List.cons.sizeOf_spec, Prod.mk.sizeOf_spec]
        omega

theorem lookupElem_sizeOf {xs : List Value} {kv : SKey} {v : Value}
    (h : lookupElem xs kv = some v) : sizeOf v < sizeOf xs := by
  induction xs with
  | nil => simp [lookupElem] at h
  | cons x rest ih =>
    simp only [lookupElem] at h
    split at h
    · cases h
      simp only [List.cons.sizeOf_spec]
      omega
    · have := ih h
      simp only [List.cons.sizeOf_spec]
      omega

/-- Fields of the patch absent from the target, appended by the
structured-tree strategy after the retained target fields; delete
directives aimed at absent fields are dropped. -/
def addNewFields (t p : List (String × Value)) : List (String × Value) :=
  p.filter (fun kv => !(isNull kv.2) && (lookupF t kv.1).isNone)

/-- Keyed patch elements whose merge-key value is absent from the
target list, appended by the structured-tree strategy after the
retained target elements; unkeyed patch elements are appended too. -/
def addNewElems (txs pxs : List Value) : List Value :=
  pxs.filter (fun pe =>
    match elemKey pe with
    | none => true
    | some kv => !(elemMem kv txs))

mutual

/-- Modelled from the spec: the structured-tree (kyaml filter) strategy
of the patch applicator, stated denotationally: the result keeps every
target field (merged or deleted according to the patch binding of its
key) and then appends the new non-delete patch fields in patch order.
This is the second formulation of the strategic-merge algorithm, to be
compared with the sequential smMerge above. -/
def treeMerge : Value → Value → Value
  | Value.obj t, Value.obj p => Value.obj (treeMergeFields t p)
  | Value.arr txs, Value.arr pxs =>
    if keyedList txs && keyedList pxs then Value.arr (treeMergeList txs pxs)
    else Value.arr pxs
  | _, p => p
termination_by a b => sizeOf a + sizeOf b
decreasing_by
  all_goals (try simp_wf) <;> omega

/-- Field-map level of the structured-tree strategy. -/
def treeMergeFields (t p : List (String × Value)) : List (String × Value) :=
  treeKeep t p ++ addNewFields t p
termination_by sizeOf t + sizeOf p + 1
decreasing_by
  all_goals (try simp_wf) <;> omega

/-- Target fields retained by the structured-tree strategy: a target
field keeps its value when its key is absent from the patch, disappears
when the patch binds its key to the delete sentinel, and is merged
recursively otherwise. -/
def treeKeep : List (String × Value) → List (String × Value) → List (String × Value)
  | [], _ => []
  | (k, tv) :: rest, p =>
    (match h : lookupF p k with
     | none => [(k, tv)]
     | some pv => if isNull pv then [] else [(k, treeMerge tv pv)]) ++ treeKeep rest p
termination_by t p => sizeOf t + sizeOf p
decreasing_by
  all_goals (try simp_wf)
  all_goals try have hsz := lookupF_sizeOf h
  all_goals simp only [List.cons.sizeOf_spec, Prod.mk.sizeOf_spec] at *
  all_goals omega

/-- List level of the structured-tree strategy: retained target
elements, then the new patch elements in patch order. -/
def treeMergeList (txs pxs : List Value) : List Value :=
  treeKeepList txs pxs ++ addNewElems txs pxs
termination_by sizeOf txs + sizeOf pxs + 1
decreasing_by
  all_goals (try simp_wf) <;> omega

/-- Target elements retained by the structured-tree strategy: a target
element is merged with the patch element carrying the same merge-key
value when one exists and is kept as is otherwise. -/
def treeKeepList : List Value → List Value → List Value
  | [], _ => []
  | tx :: rest, pxs =>
    (match elemKey tx with
     | none => [tx]
     | some kv =>
       match h : lookupElem pxs kv with
       | none => [tx]
       | some pe => [treeMerge tx pe]) ++ treeKeepList rest pxs
termination_by t p => sizeOf t + sizeOf p
decreasing_by
  all_goals (try simp_wf)
  all_goals try have hsz := lookupElem_sizeOf h
  all_goals simp only [List.cons.sizeOf_spec] at *
  all_goals omega

end

example : treeMergeFields [("a", Value.num 0), ("b", Value.num 2)] [("a", Value.null), ("c", Value.str "x")]
    = [("b", Value.num 2), ("c", Value.str "x")] := by
  simp [treeMergeFields, treeKeep, addNewFields, lookupF, isNull]

mutual

/-- Structural equality of field-trees, used by the test operation of
the RFC6902 engine. -/
def beqV : Value → Value → Bool
  | Value.null, Value.null => true
  | Value.bool a, Value.bool b => a == b
  | Value.num a, Value.num b => a == b
  | Value.str a, Value.str b => a == b
  | Value.arr xs, Value.arr ys => beqArr xs ys
  | Value.obj fs, Value.obj gs => beqFields fs gs
  | _, _ => false

/-- Structural equality of list values, element by element. -/
def beqArr : List Value → List Value → Bool
  | [], [] => true
  | x :: xs, y :: ys => beqV x y && beqArr xs ys
  | _, _ => false

/-- Structural equality of ordered field maps, binding by binding. -/
def beqFields : List (String × Value) → List (String × Value) → Bool
  | [], [] => true
  | (k, v) :: fs, (l, w) :: gs => k == l && beqV v w && beqFields fs gs
  | _, _ => false

end

/-- Error taxonomy of the engine: configuration errors, parse errors,
not-found errors from implicit-identity target resolution, and apply
errors from patch application. -/
inductive Err where
  | configErr (msg : String) : Err
  | parseErr (msg : String) : Err
  | notFoundErr (msg : String) : Err
  | applyErr (msg : String) : Err
deriving DecidableEq

/-- Navigation of a field-tree along a path of map keys. -/
def getFieldPath : Value → List String → Option Value
  | v, [] => some v
  | Value.obj fs, k :: rest =>
    match lookupF fs k with
    | some u => getFieldPath u rest
    | none => none
  | _, _ :: _ => none

/-- Modelled from the spec: writing a value at a path of map keys,
creating intermediate maps when missing or non-map (the path setter
behind the identity mutators SetName, SetNamespace and SetGvk of the
resource collaborator). -/
def setFieldPath : Value → List String → Value → Value
  | _, [], nv => nv
  | Value.obj fs, k :: rest, nv =>
    Value.obj (setF fs k (setFieldPath ((lookupF fs k).getD (Value.obj [])) rest nv))
  | _, k :: rest, nv => Value.obj [(k, setFieldPath (Value.obj []) rest nv)]
termination_by _ p _ => p.length
decreasing_by
  all_goals simp

/-- Path setter at the level of a top field map. -/
def setFieldsPath (fs : List (String × Value)) : List String → Value → List (String × Value)
  | [], _ => fs
  | k :: rest, nv => setF fs k (setFieldPath ((lookupF fs k).getD (Value.obj [])) rest nv)

/-- Modelled from the spec: a resource is a mutable field-tree; its
identity (group/version, kind, namespace, name) is carried by the
apiVersion, kind and metadata fields of the tree. -/
structure Resource where
  fields : List (String × Value)

/-- Composite identity key of a resource. -/
structure ResId where
  apiVersion : String
  kind : String
  namespc : String
  name : String
deriving DecidableEq

/-- String read at a path of a field map, empty when absent or not a
string. -/
def getStrAt (fs : List (String × Value)) (path : List String) : String :=
  match getFieldPath (Value.obj fs) path with
  | some (Value.str s) => s
  | _ => ""

/-- Name of a resource (metadata.name). -/
def resName (r : Resource) : String := getStrAt r.fields ["metadata", "name"]

/-- Namespace of a resource (metadata.namespace). -/
def resNamespace (r : Resource) : String := getStrAt r.fields ["metadata", "namespace"]

/-- Group/version of a resource (apiVersion). -/
def resApiVersion (r : Resource) : String := getStrAt r.fields ["apiVersion"]

/-- Kind of a resource. -/
def resKind (r : Resource) : String := getStrAt r.fields ["kind"]

/-- Identity of a resource, derived from its field-tree. -/
def resId (r : Resource) : ResId :=
  ResId.mk (resApiVersion r) (resKind r) (resNamespace r) (resName r)

/-- Modelled from the spec: the SetName identity mutator of the resource
collaborator. -/
def setResName (r : Resource) (s : String) : Resource :=
  Resource.mk (setFieldsPath r.fields ["metadata", "name"] (Value.str s))

/-- Modelled from the spec: the SetNamespace identity mutator. -/
def setResNamespace (r : Resource) (s : String) : Resource :=
  Resource.mk (setFieldsPath r.fields ["metadata", "namespace"] (Value.str s))

/-- Modelled from the spec: the SetGvk identity mutator, writing the
apiVersion and kind fields. -/
def setResGvk (r : Resource) (apiVersion kind : String) : Resource :=
  Resource.mk (setFieldsPath (setFieldsPath r.fields ["apiVersion"] (Value.str apiVersion))
    ["kind"] (Value.str kind))

/-- The patch copy stamped with the identity of one fan-out target, as
built by transformStrategicMerge: SetName, then SetNamespace, then
SetGvk with the values of the target. -/
def stampPatch (patch target : Resource) : Resource :=
  setResGvk (setResNamespace (setResName patch (resName target)) (resNamespace target))
    (resApiVersion target) (resKind target)

/-- Modelled from the spec: exact identity lookup in the resource
collection (GetById). -/
def getById (m : List Resource) (id : ResId) : Option Resource :=
  m.find? (fun r => resId r == id)

/-- In-place mutation of the resource holding a given identity, written
as a pure replacement of every matching element; identities are unique
within a collection, so at most one element changes. -/
def replaceById (m : List Resource) (id : ResId) (newR : Resource) : List Resource :=
  m.map (fun r => if resId r == id then newR else r)

/-- Modelled from the spec: removal of an identity from the collection
(Remove); it errors unless exactly one resource carried the identity. -/
def removeById (m : List Resource) (id : ResId) : Except Err (List Resource) :=
  let kept := m.filter (fun r => !(resId r == id))
  if kept.length + 1 = m.length then Except.ok kept
  else Except.error (Err.notFoundErr "id to remove is absent or not unique")

/-- The applySMPatch dispatch of PatchTransformer.go: the kyaml
structured-tree strategy when YAMLSupport holds, the legacy typed-object
strategy otherwise. -/
def applySMPatch (yamlSupport : Bool) (r patch : Resource) : Resource :=
  if yamlSupport then Resource.mk (treeMergeFields r.fields patch.fields)
  else Resource.mk (smMergeFields r.fields patch.fields)

/-- The fan-out loop of transformStrategicMerge: every selected resource
is mutated in place with a patch copy stamped with its own identity. -/
def ptSelLoop (yamlSupport : Bool) (patch : Resource) (sel : Resource → Bool) :
    List Resource → List Resource
  | [] => []
  | r :: rest =>
    (if sel r then applySMPatch yamlSupport r (stampPatch patch r) else r)
      :: ptSelLoop yamlSupport patch sel rest

/-- The transformStrategicMerge control flow of PatchTransformer.go:
without a target selector the patch resolves by its own identity and is
applied as is; with a selector every matching resource receives a
stamped copy.  The emptied-resource check of the multi-patch transformer
is absent here. -/
def transformStrategicMerge (yamlSupport : Bool) (target? : Option (Resource → Bool))
    (m : List Resource) (patch : Resource) : Except Err (List Resource) :=
  match target? with
  | none =>
    match getById m (resId patch) with
    | none => Except.error (Err.notFoundErr "no matching resource for patch id")
    | some target =>
      Except.ok (replaceById m (resId target) (applySMPatch yamlSupport target patch))
  | some sel => Except.ok (ptSelLoop yamlSupport patch sel m)

/-- One application of the PatchStrategicMergeTransformer Transform loop
body: the strategic merge is applied to the resource matching the patch
identity (the kyaml branch first stamps the patch copy with the target
identity), and when every field of the target has been removed the
target current identity is removed from the collection. -/
def psmtApplyPatch (yamlSupport : Bool) (target patch : Resource) : Resource :=
  if yamlSupport then Resource.mk (treeMergeFields target.fields (stampPatch patch target).fields)
  else Resource.mk (smMergeFields target.fields patch.fields)

/-- Loop body of the PatchStrategicMergeTransformer Transform pass. -/
def psmtStep (yamlSupport : Bool) (m : List Resource) (patch : Resource) :
    Except Err (List Resource) :=
  match getById m (resId patch) with
  | none => Except.error (Err.notFoundErr "no matching resource for patch id")
  | some target =>
    let target2 := psmtApplyPatch yamlSupport target patch
    let m2 := replaceById m (resId target) target2
    if target2.fields.isEmpty then removeById m2 (resId target2) else Except.ok m2

/-- The Transform pass of PatchStrategicMergeTransformer.go over a list
of already merged patches. -/
def psmtTransform (yamlSupport : Bool) : List Resource → List Resource →
    Except Err (List Resource)
  | [], m => Except.ok m
  | patch :: rest, m =>
    match psmtStep yamlSupport m patch with
    | Except.error e => Except.error e
    | Except.ok m2 => psmtTransform yamlSupport rest m2

/-- Modelled from the spec: the patch merger consolidates the
strategic-merge patches sharing one target identity by folding them, in
input order, through the strategic-merge algorithm, the running result
as target and each successive patch as patch. -/
def mergePatchesFields : List (List (String × Value)) → List (String × Value)
  | [] => []
  | f :: rest => rest.foldl smMergeFields f

/-- A token of an RFC6901 path pointer: a map key, a list index, or the
append marker. -/
inductive Tok where
  | key (s : String) : Tok
  | idx (n : Nat) : Tok
  | last : Tok
deriving DecidableEq

/-- An RFC6902 operation. -/
inductive JsonOp where
  | add (path : List Tok) (v : Value) : JsonOp
  | remove (path : List Tok) : JsonOp
  | replace (path : List Tok) (v : Value) : JsonOp
  | move (fromPath toPath : List Tok) : JsonOp
  | copy (fromPath toPath : List Tok) : JsonOp
  | test (path : List Tok) (v : Value) : JsonOp

/-- Modelled from the spec: resolution of a path pointer in a
field-tree. -/
def getPtr : Value → List Tok → Option Value
  | v, [] => some v
  | Value.obj fs, Tok.key k :: rest =>
    match lookupF fs k with
    | some u => getPtr u rest
    | none => none
  | Value.arr xs, Tok.idx n :: rest =>
    match xs.get? n with
    | some u => getPtr u rest
    | none => none
  | _, _ => none

/-- Modelled from the spec: the remove operation; it fails when the
addressed path is missing from the tree. -/
def removePtr : Value → List Tok → Option Value
  | _, [] => none
  | Value.obj fs, [Tok.key k] =>
    match lookupF fs k with
    | some _ => some (Value.obj (eraseF fs k))
    | none => none
  | Value.arr xs, [Tok.idx n] =>
    if n < xs.length then some (Value.arr (xs.eraseIdx n)) else none
  | Value.obj fs, Tok.key k :: rest =>
    match lookupF fs k with
    | some u =>
      match removePtr u rest with
      | some u2 => some (Value.obj (setF fs k u2))
      | none => none
    | none => none
  | Value.arr xs, Tok.idx n :: rest =>
    match xs.get? n with
    | some u =>
      match removePtr u rest with
      | some u2 => some (Value.arr (xs.set n u2))
      | none => none
    | none => none
  | _, _ => none

/-- Modelled from the spec: the add operation; a map binding is created
or replaced, a list element is inserted at the index (or appended for
the append marker); a missing parent path fails. -/
def addPtr : Value → List Tok → Value → Option Value
  | _, [], nv => some nv
  | Value.obj fs, [Tok.key k], nv => some (Value.obj (setF fs k nv))
  | Value.arr xs, [Tok.idx n], nv =>
    if n ≤ xs.length then some (Value.arr (xs.insertIdx n nv)) else none
  | Value.arr xs, [Tok.last], nv => some (Value.arr (xs ++ [nv]))
  | Value.obj fs, Tok.key k :: rest, nv =>
    match lookupF fs k with
    | some u =>
      match addPtr u rest nv with
      | some u2 => some (Value.obj (setF fs k u2))
      | none => none
    | none => none
  | Value.arr xs, Tok.idx n :: rest, nv =>
    match xs.get? n with
    | some u =>
      match addPtr u rest nv with
      | some u2 => some (Value.arr (xs.set n u2))
      | none => none
    | none => none
  | _, _, _ => none

/-- Modelled from the spec: the replace operation; it fails when the
addressed path is missing. -/
def replacePtr : Value → List Tok → Value → Option Value
  | _, [], nv => some nv
  | Value.obj fs, [Tok.key k], nv =>
    match lookupF fs k with
    | some _ => some (Value.obj (setF fs k nv))
    | none => none
  | Value.arr xs, [Tok.idx n], nv =>
    if n < xs.length then some (Value.arr (xs.set n nv)) else none
  | Value.obj fs, Tok.key k :: rest, nv =>
    match lookupF fs k with
    | some u =>
      match replacePtr u rest nv with
      | some u2 => some (Value.obj (setF fs k u2))
      | none => none
    | none => none
  | Value.arr xs, Tok.idx n :: rest, nv =>
    match xs.get? n with
    | some u =>
      match replacePtr u rest nv with
      | some u2 => some (Value.arr (xs.set n u2))
      | none => none
    | none => none
  | _, _, _ => none

/-- Modelled from the spec: one RFC6902 operation applied to a
field-tree; a failed precondition (missing path for
remove/replace/move/copy, mismatched value for test) yields an error. -/
def applyOp (v : Value) : JsonOp → Except String Value
  | JsonOp.add p nv =>
    match addPtr v p nv with
    | some v2 => Except.ok v2
    | none => Except.error "add operation does not apply: missing parent path"
  | JsonOp.remove p =>
    match removePtr v p with
    | some v2 => Except.ok v2
    | none => Except.error "remove operation does not apply: missing path"
  | JsonOp.replace p nv =>
    match replacePtr v p nv with
    | some v2 => Except.ok v2
    | none => Except.error "replace operation does not apply: missing path"
  | JsonOp.move f t =>
    match getPtr v f with
    | none => Except.error "move operation does not apply: missing from path"
    | some moved =>
      match removePtr v f with
      | none => Except.error "move operation does not apply: missing from path"
      | some v2 =>
        match addPtr v2 t moved with
        | some v3 => Except.ok v3
        | none => Except.error "move operation does not apply: missing to path"
  | JsonOp.copy f t =>
    match getPtr v f with
    | none => Except.error "copy operation does not apply: missing from path"
    | some got =>
      match addPtr v t got with
      | some v3 => Except.ok v3
      | none => Except.error "copy operation does not apply: missing to path"
  | JsonOp.test p tv =>
    match getPtr v p with
    | some actual =>
      if beqV actual tv then Except.ok v else Except.error "testing value failed"
    | none => Except.error "testing value failed: missing path"

/-- Sequential application of an operation list; the first failure stops
the run. -/
def runOps : Value → List JsonOp → Except String Value
  | v, [] => Except.ok v
  | v, op :: rest =>
    match applyOp v op with
    | Except.error e => Except.error e
    | Except.ok v2 => runOps v2 rest

/-- The applyJson6902Patch flow of PatchTransformer.go: the resource is
serialized, the operations run on the copy, and the result is written
back only on success; on failure the resource keeps its original
field-tree and an apply error is reported. -/
def applyJson6902Patch (r : Resource) (ops : List JsonOp) : Resource × Option Err :=
  match runOps (Value.obj r.fields) ops with
  | Except.error e => (r, some (Err.applyErr e))
  | Except.ok (Value.obj fs) => (Resource.mk fs, none)
  | Except.ok _ => (r, some (Err.applyErr "patched document is not an object"))

/-- The per-resource loop of transformJson6902: selected resources are
patched in collection order and the first failure aborts the pass,
leaving the failing resource unmodified. -/
def json6902Loop (ops : List JsonOp) (sel : Resource → Bool) :
    List Resource → List Resource × Option Err
  | [] => ([], none)
  | r :: rest =>
    if sel r then
      match applyJson6902Patch r ops with
      | (r2, some e) => (r2 :: rest, some e)
      | (r2, none) =>
        let out := json6902Loop ops sel rest
        (r2 :: out.1, out.2)
    else
      let out := json6902Loop ops sel rest
      (r :: out.1, out.2)

/-- The transformJson6902 control flow of PatchTransformer.go: a missing
target selector is a configuration error before any resource is touched;
otherwise every selected resource is patched. -/
def transformJson6902 (target? : Option (Resource → Bool)) (ops : List JsonOp)
    (m : List Resource) : List Resource × Option Err :=
  match target? with
  | none => (m, some (Err.configErr "must specify a target for patch"))
  | some sel => json6902Loop ops sel m

/-- Outcome of the single-patch classification. -/
inductive PatchClass where
  | strategicMerge (r : Resource) : PatchClass
  | jsonPatchOps (ops : List JsonOp) : PatchClass

/-- The classification step of the PatchTransformer Config (lines 64 to
80): the raw content is parsed both as a strategic-merge resource
document and as a JSON-Patch operation array; both parses succeeding is
an ambiguity configuration error, both failing is a parse error, and
otherwise the single successful parse decides the kind. -/
def classifyPatch (smResult : Except String Resource)
    (jsonResult : Except String (List JsonOp)) : Except Err PatchClass :=
  match smResult, jsonResult with
  | Except.ok _, Except.ok _ =>
    Except.error (Err.configErr "illegally qualifies as both an SM and JSON patch")
  | Except.error _, Except.error _ =>
    Except.error (Err.parseErr "unable to parse SM or JSON patch")
  | Except.ok sm, Except.error _ => Except.ok (PatchClass.strategicMerge sm)
  | Except.error _, Except.ok ops => Except.ok (PatchClass.jsonPatchOps ops)

/-- The patch/path validation of the PatchTransformer Config (lines 46
to 54): the inline patch is trimmed, then exactly one of the inline
patch and the external path reference must be non-empty. -/
def configPatchPathCheck (patch path : String) : Except Err String :=
  let patch := patch.trim
  if patch = "" ∧ path = "" then
    Except.error (Err.configErr "must specify one of patch and path")
  else if patch ≠ "" ∧ path ≠ "" then
    Except.error (Err.configErr "patch and path cannot be set at the same time")
  else Except.ok patch

/-- Prefix test on character lists. -/
def charsPrefixAt : List Char → List Char → Bool
  | _, [] => true
  | [], _ :: _ => false
  | a :: as, b :: bs => a == b && charsPrefixAt as bs

/-- Substring occurrence test on character lists. -/
def charsContain (sub : List Char) : List Char → Bool
  | [] => sub.isEmpty
  | a :: as => charsPrefixAt (a :: as) sub || charsContain sub as

/-- The strings.Contains collaborator used by Config on the raw
configuration bytes. -/
def strContains (s sub : String) : Bool :=
  charsContain sub.toList s.toList

/-- The YAMLSupport activation logic of both Config functions (lines 41
to 45 of PatchTransformer.go): the unmarshalled flag value is overridden
to true whenever the raw configuration bytes do not contain the
substring yamlSupport. -/
def effectiveYAMLSupport (c : String) (unmarshalled : Bool) : Bool :=
  if !(strContains c "yamlSupport") then true else unmarshalled

/-- The jsonPatchFromBytes flow of PatchTransformer.go, parametric in
the two external codecs (YAMLToJSON and DecodePatch): empty content is
rejected before any decoding, content not starting with a bracket is
converted from YAML to JSON first, and the decoder runs on the result. -/
def jsonPatchFromBytes (yamlToJson : String → Except String String)
    (decodePatch : String → Except String (List JsonOp))
    (input : String) : Except String (List JsonOp) :=
  let ops := input
  if ops = "" then Except.error "empty json patch operations"
  else if ops.front ≠ '[' then
    match yamlToJson input with
    | Except.error e => Except.error e
    | Except.ok jsonOps => decodePatch jsonOps
  else decodePatch ops

/-- Failure of the precondition of one RFC6902 operation on a given
tree: a missing path for remove, replace, move or copy, or a mismatched
value for test. -/
def precondFails (v : Value) : JsonOp → Bool
  | JsonOp.add _ _ => false
  | JsonOp.remove p => (getPtr v p).isNone
  | JsonOp.replace p _ => (getPtr v p).isNone
  | JsonOp.move f _ => (getPtr v f).isNone
  | JsonOp.copy f _ => (getPtr v f).isNone
  | JsonOp.test p tv =>
    match getPtr v p with
    | some actual => !(beqV actual tv)
    | none => true

mutual

/-- Paths touched by a strategic-merge patch value, each marked true
when the touch is a delete directive (a null leaf). -/
def touchPathsV : Value → List (List String × Bool)
  | Value.null => [([], true)]
  | Value.obj fs => ([], false) :: touchPathsF fs
  | _ => [([], false)]

/-- Paths touched by the fields of a strategic-merge patch map. -/
def touchPathsF : List (String × Value) → List (List String × Bool)
  | [] => []
  | (k, v) :: rest => (touchPathsV v).map (fun pd => (k :: pd.1, pd.2)) ++ touchPathsF rest

end

/-- Paths removed by the delete directives of a patch map. -/
def deleteTouches (fs : List (String × Value)) : List (List String) :=
  (touchPathsF fs).filterMap (fun pd => if pd.2 then some pd.1 else none)

/-- Paths touched by the non-delete directives of a patch map. -/
def nonDeleteTouches (fs : List (String × Value)) : List (List String) :=
  (touchPathsF fs).filterMap (fun pd => if pd.2 then none else some pd.1)

/-- The side condition of the merge-then-apply equivalence claim: no
field is touched by both a delete directive and a later non-delete
directive across the patch sequence. -/
def noDeleteThenNonDelete : List (List (String × Value)) → Bool
  | [] => true
  | f :: rest =>
    (deleteTouches f).all
        (fun p => rest.all (fun g => !((nonDeleteTouches g).contains p)))
      && noDeleteThenNonDelete rest

/-- Chain condition under which patch consolidation commutes with
sequential application: walking the sequence with the accumulated
earlier fields, every later patch has duplicate-free top-level keys,
no top-level delete directive, and only top-level keys fresh for the
accumulated fields. -/
def disjointChainB : List (String × Value) → List (List (String × Value)) → Bool
  | _, [] => true
  | acc, q :: qs =>
    nodupKeysB q
      && q.all (fun kv => !(isNull kv.2) && (lookupF acc kv.1).isNone)
      && disjointChainB (acc ++ q) qs

/-! Theorems about the embedded program. -/

/-- C1: for every raw patch content handed to the single-patch loader,
configuration fails with a ConfigError when the content parses both as a
strategic-merge resource document and as a JSON-Patch operation array,
fails with a ParseError when it parses as neither, and otherwise
classifies the patch as exactly the one kind that parsed
successfully. -/
theorem classifyPatch_exactly_one_kind :
    (∀ sm ops, classifyPatch (Except.ok sm) (Except.ok ops)
      = Except.error (Err.configErr "illegally qualifies as both an SM and JSON patch"))
    ∧ (∀ e1 e2, classifyPatch (Except.error e1) (Except.error e2)
      = Except.error (Err.parseErr "unable to parse SM or JSON patch"))
    ∧ (∀ sm e, classifyPatch (Except.ok sm) (Except.error e)
      = Except.ok (PatchClass.strategicMerge sm))
    ∧ (∀ e ops, classifyPatch (Except.error e) (Except.ok ops)
      = Except.ok (PatchClass.jsonPatchOps ops)) :=
  ⟨fun _ _ => rfl, fun _ _ => rfl, fun _ _ => rfl, fun _ _ => rfl⟩

/-- C5: for every patch classified as JSONPatchOps, transforming a
resource collection with no explicit target selector configured always
fails with a ConfigError and no resource in the collection is
mutated. -/
theorem transformJson6902_requires_target (ops : List JsonOp) (m : List Resource) :
    transformJson6902 none ops m
      = (m, some (Err.configErr "must specify a target for patch")) := rfl

/-- C6: the single-patch Config validation fails when neither an inline
patch nor an external reference is supplied, fails when both are
supplied simultaneously, and proceeds exactly when one of the two is
supplied (the inline patch counting as supplied when non-empty after
trimming). -/
theorem config_patch_path_exclusive (patch path : String) :
    (∃ s, configPatchPathCheck patch path = Except.ok s) ↔
      ((patch.trim = "" ∧ path ≠ "") ∨ (patch.trim ≠ "" ∧ path = "")) := by
  unfold configPatchPathCheck
  by_cases h1 : patch.trim = "" <;> by_cases h2 : path = "" <;> simp [h1, h2]

/-- C9: the structured-tree strategy is activated by default exactly
when the raw configuration bytes do not contain the substring
yamlSupport; when the bytes do contain it anywhere (for example inside
the patch content), the unmarshalled flag value is kept, so the legacy
strategy stays selected unless yamlSupport is explicitly set to
true. -/
theorem yamlSupport_default_by_substring (c : String) (unmarshalled : Bool) :
    (effectiveYAMLSupport c false = !(strContains c "yamlSupport"))
    ∧ (effectiveYAMLSupport c unmarshalled = true ↔
        (strContains c "yamlSupport" = false ∨ unmarshalled = true)) := by
  constructor
  · unfold effectiveYAMLSupport
    cases h : strContains c "yamlSupport" <;> simp [h]
  · unfold effectiveYAMLSupport
    cases h : strContains c "yamlSupport" <;> cases unmarshalled <;> simp [h]

/-- C10: for content whose first character is not an opening bracket,
the JSON-Patch classification attempt converts the content from YAML to
JSON before decoding, so an operation array in YAML form is decoded
from the converted text; and empty content is rejected before any
decoding, whatever the codecs do. -/
theorem jsonPatchFromBytes_yaml_and_empty
    (yamlToJson : String → Except String String)
    (decodePatch : String → Except String (List JsonOp))
    (input j : String)
    (hne : input ≠ "") (hfront : input.front ≠ '[')
    (hconv : yamlToJson input = Except.ok j) :
    jsonPatchFromBytes yamlToJson decodePatch input = decodePatch j
    ∧ jsonPatchFromBytes yamlToJson decodePatch ""
        = Except.error "empty json patch operations" := by
  constructor
  · unfold jsonPatchFromBytes
    simp [hne, hfront, hconv]
  · rfl

/-- Witness for C10 at a concrete YAML-form operation list. -/
theorem jsonPatchFromBytes_yaml_and_empty_witness :
    ("- op: remove" ≠ "")
    ∧ (String.front "- op: remove" ≠ '[')
    ∧ ((fun s => if s = "- op: remove" then Except.ok "[converted]"
          else Except.error "bad yaml") "- op: remove"
        = Except.ok ("[converted]" : String))
    ∧ (jsonPatchFromBytes
        (fun s => if s = "- op: remove" then Except.ok "[converted]"
          else Except.error "bad yaml")
        (fun s => if s = "[converted]" then Except.ok [JsonOp.remove [Tok.key "x"]]
          else Except.error "bad json")
        "- op: remove"
      = (fun s => if s = "[converted]" then Except.ok [JsonOp.remove [Tok.key "x"]]
          else Except.error "bad json") "[converted]") := by
  refine ⟨by decide, by decide, by simp, ?_⟩
  exact (jsonPatchFromBytes_yaml_and_empty _ _ "- op: remove" "[converted]"
    (by decide) (by decide) (by simp)).1

theorem runOps_append (v : Value) (pre post : List JsonOp) :
    runOps v (pre ++ post) =
      match runOps v pre with
      | Except.error e => Except.error e
      | Except.ok v2 => runOps v2 post := by
  induction pre generalizing v with
  | nil => simp [runOps]
  | cons op rest ih =>
    simp only [List.cons_append, runOps]
    cases applyOp v op <;> simp [ih]

theorem getPtr_none_removePtr {v : Value} {p : List Tok}
    (h : getPtr v p = none) : removePtr v p = none := by
  induction p generalizing v with
  | nil => simp [getPtr] at h
  | cons t rest ih =>
    cases v with
    | obj fs =>
      cases t with
      | key k =>
        cases hl : lookupF fs k with
        | none =>
          cases rest <;> simp [removePtr, hl]
        | some u =>
          have hu : getPtr u rest = none := by
            simpa [getPtr, hl] using h
          cases rest with
          | nil => simp [getPtr] at hu
          | cons t2 rest2 => simp [removePtr, hl, ih hu]
      | idx n => cases rest <;> simp [removePtr, getPtr] at h ⊢
      | last => cases rest <;> simp [removePtr]
    | arr xs =>
      cases t with
      | key k => cases rest <;> simp [removePtr]
      | idx n =>
        cases hg : xs.get? n with
        | none =>
          have hlen : xs.length ≤ n := List.get?_eq_none.mp hg
          cases rest with
          | nil => simp [removePtr, Nat.not_lt.mpr hlen]
          | cons t2 rest2 => simp [removePtr, List.getElem?_eq_none hlen]
        | some u =>
          have hg2 : xs[n]? = some u := by simpa using hg
          have hu : getPtr u rest = none := by
            simpa [getPtr, hg2] using h
          cases rest with
          | nil => simp [getPtr] at hu
          | cons t2 rest2 => simp [removePtr, hg2, ih hu]
      | last => cases rest <;> simp [removePtr]
    | null => cases t <;> cases rest <;> simp [removePtr]
    | bool b => cases t <;> cases rest <;> simp [removePtr]
    | num n => cases t <;> cases rest <;> simp [removePtr]
    | str s => cases t <;> cases rest <;> simp [removePtr]

theorem getPtr_none_replacePtr {v : Value} {p : List Tok} {nv : Value}
    (h : getPtr v p = none) : replacePtr v p nv = none := by
  induction p generalizing v with
  | nil => simp [getPtr] at h
  | cons t rest ih =>
    cases v with
    | obj fs =>
      cases t with
      | key k =>
        cases hl : lookupF fs k with
        | none =>
          cases rest <;> simp [replacePtr, hl]
        | some u =>
          have hu : getPtr u rest = none := by
            simpa [getPtr, hl] using h
          cases rest with
          | nil => simp [getPtr] at hu
          | cons t2 rest2 => simp [replacePtr, hl, ih hu]
      | idx n => cases rest <;> simp [replacePtr, getPtr] at h ⊢
      | last => cases rest <;> simp [replacePtr]
    | arr xs =>
      cases t with
      | key k => cases rest <;> simp [replacePtr]
      | idx n =>
        cases hg : xs.get? n with
        | none =>
          have hlen : xs.length ≤ n := List.get?_eq_none.mp hg
          cases rest with
          | nil => simp [replacePtr, Nat.not_lt.mpr hlen]
          | cons t2 rest2 => simp [replacePtr, List.getElem?_eq_none hlen]
        | some u =>
          have hg2 : xs[n]? = some u := by simpa using hg
          have hu : getPtr u rest = none := by
            simpa [getPtr, hg2] using h
          cases rest with
          | nil => simp [getPtr] at hu
          | cons t2 rest2 => simp [replacePtr, hg2, ih hu]
      | last => cases rest <;> simp [replacePtr]
    | null => cases t <;> cases rest <;> simp [replacePtr]
    | bool b => cases t <;> cases rest <;> simp [replacePtr]
    | num n => cases t <;> cases rest <;> simp [replacePtr]
    | str s => cases t <;> cases rest <;> simp [replacePtr]

theorem precondFails_error {v : Value} {op : JsonOp}
    (h : precondFails v op = true) : ∃ e, applyOp v op = Except.error e := by
  cases op with
  | add p nv => simp [precondFails] at h
  | remove p =>
    have hg : getPtr v p = none := by
      simpa [precondFails, Option.isNone_iff_eq_none] using h
    exact ⟨"remove operation does not apply: missing path",
      by simp [applyOp, getPtr_none_removePtr hg]⟩
  | replace p nv =>
    have hg : getPtr v p = none := by
      simpa [precondFails, Option.isNone_iff_eq_none] using h
    exact ⟨"replace operation does not apply: missing path",
      by simp [applyOp, getPtr_none_replacePtr hg]⟩
  | move f t =>
    have hg : getPtr v f = none := by
      simpa [precondFails, Option.isNone_iff_eq_none] using h
    exact ⟨"move operation does not apply: missing from path", by simp [applyOp, hg]⟩
  | copy f t =>
    have hg : getPtr v f = none := by
      simpa [precondFails, Option.isNone_iff_eq_none] using h
    exact ⟨"copy operation does not apply: missing from path", by simp [applyOp, hg]⟩
  | test p tv =>
    simp only [precondFails] at h
    cases hg : getPtr v p with
    | none => exact ⟨"testing value failed: missing path", by simp [applyOp, hg]⟩
    | some actual =>
      rw [hg] at h
      simp only [Bool.not_eq_true'] at h
      exact ⟨"testing value failed", by simp [applyOp, hg, h]⟩

/-- C4: for every resource and every JSON-Patch operation sequence, if a
single operation precondition fails (missing path for remove, replace,
move or copy, mismatched value for test) on the state reached by the
operations before it, then applyJson6902Patch reports an ApplyError and
the resource keeps its original field-tree, never a partially patched
one. -/
theorem applyJson6902Patch_atomic_on_precondition_failure
    (r : Resource) (pre : List JsonOp) (op : JsonOp) (post : List JsonOp)
    (st : Value)
    (hpre : runOps (Value.obj r.fields) pre = Except.ok st)
    (hfail : precondFails st op = true) :
    ∃ e, applyJson6902Patch r (pre ++ op :: post) = (r, some (Err.applyErr e)) := by
  obtain ⟨e, he⟩ := precondFails_error hfail
  refine ⟨e, ?_⟩
  have hrun : runOps (Value.obj r.fields) (pre ++ op :: post) = Except.error e := by
    rw [runOps_append, hpre]
    simp [runOps, he]
  simp [applyJson6902Patch, hrun]

/-- Witness for C4: a remove aimed at a missing path, after one
successful add, aborts and leaves the concrete resource unmodified. -/
theorem applyJson6902Patch_atomic_witness :
    (runOps (Value.obj (Resource.mk [("spec", Value.num 1)]).fields)
        [JsonOp.add [Tok.key "extra"] (Value.num 7)]
      = Except.ok (Value.obj [("spec", Value.num 1), ("extra", Value.num 7)]))
    ∧ (precondFails (Value.obj [("spec", Value.num 1), ("extra", Value.num 7)])
        (JsonOp.remove [Tok.key "missing"]) = true)
    ∧ (∃ e, applyJson6902Patch (Resource.mk [("spec", Value.num 1)])
        ([JsonOp.add [Tok.key "extra"] (Value.num 7)]
          ++ JsonOp.remove [Tok.key "missing"] :: [JsonOp.remove [Tok.key "spec"]])
      = (Resource.mk [("spec", Value.num 1)], some (Err.applyErr e))) := by
  refine ⟨by simp [runOps, applyOp, addPtr, setF, lookupF], by decide, ?_⟩
  exact applyJson6902Patch_atomic_on_precondition_failure
    (Resource.mk [("spec", Value.num 1)])
    [JsonOp.add [Tok.key "extra"] (Value.num 7)]
    (JsonOp.remove [Tok.key "missing"])
    [JsonOp.remove [Tok.key "spec"]]
    (Value.obj [("spec", Value.num 1), ("extra", Value.num 7)])
    (by simp [runOps, applyOp, addPtr, setF, lookupF]) (by decide)

theorem keyMem_false_ne {k : String} {fs : List (String × Value)}
    (h : keyMem k fs = false) : ∀ kv ∈ fs, ¬(kv.1 = k) := by
  induction fs with
  | nil => intro kv hkv; simp at hkv
  | cons kv2 rest ih =>
    intro kv hkv
    match kv2 with
    | (k2, v2) =>
      simp only [keyMem, Bool.or_eq_false_iff] at h
      rcases List.mem_cons.mp hkv with h1 | h2
      · subst h1
        simpa using h.1
      · exact ih h.2 kv h2

theorem lookupF_append (a b : List (String × Value)) (k : String) :
    lookupF (a ++ b) k =
      match lookupF a k with
      | some v => some v
      | none => lookupF b k := by
  induction a with
  | nil => simp [lookupF]
  | cons kv rest ih =>
    match kv with
    | (k2, v2) =>
      by_cases hk : k2 = k <;> simp [lookupF, hk, ih]

theorem smMergeFields_append (p q t : List (String × Value)) :
    smMergeFields t (p ++ q) = smMergeFields (smMergeFields t p) q := by
  induction p generalizing t with
  | nil => simp [smMergeFields]
  | cons kv rest ih =>
    match kv with
    | (k, v) =>
      simp only [List.cons_append, smMergeFields]
      exact ih _

theorem foldl_smMergeFields_flatten (ps : List (List (String × Value)))
    (t : List (String × Value)) :
    ps.foldl smMergeFields t = smMergeFields t ps.flatten := by
  induction ps generalizing t with
  | nil => simp [smMergeFields]
  | cons p rest ih =>
    simp only [List.foldl_cons, List.flatten_cons, smMergeFields_append]
    exact ih _

theorem smMergeFields_disjoint (p : List (String × Value)) :
    ∀ acc, nodupKeysB p = true →
      (∀ kv ∈ p, isNull kv.2 = false ∧ lookupF acc kv.1 = none) →
      smMergeFields acc p = acc ++ p := by
  induction p with
  | nil => intro acc _ _; simp [smMergeFields]
  | cons kv rest ih =>
    intro acc hnodup hfresh
    match kv with
    | (k, v) =>
      obtain ⟨hv, hl⟩ := hfresh (k, v) (List.mem_cons_self _ _)
      simp only [nodupKeysB, Bool.and_eq_true, Bool.not_eq_true'] at hnodup
      have hstep : smMergeStep acc k v = acc ++ [(k, v)] := by
        simp [smMergeStep, hv, hl]
      have hfresh2 : ∀ kv2 ∈ rest, isNull kv2.2 = false
          ∧ lookupF (acc ++ [(k, v)]) kv2.1 = none := by
        intro kv2 hkv2
        obtain ⟨hv2, hl2⟩ := hfresh kv2 (List.mem_cons_of_mem _ hkv2)
        refine ⟨hv2, ?_⟩
        rw [lookupF_append, hl2]
        have hne := keyMem_false_ne hnodup.1 kv2 hkv2
        have hne2 : ¬(k = kv2.1) := fun h => hne h.symm
        simp [lookupF, hne2]
      calc smMergeFields acc ((k, v) :: rest)
          = smMergeFields (smMergeStep acc k v) rest := by simp [smMergeFields]
        _ = smMergeFields (acc ++ [(k, v)]) rest := by rw [hstep]
        _ = (acc ++ [(k, v)]) ++ rest := ih _ hnodup.2 hfresh2
        _ = acc ++ ((k, v) :: rest) := by simp

theorem foldl_disjointChain (qs : List (List (String × Value))) :
    ∀ acc, disjointChainB acc qs = true →
      qs.foldl smMergeFields acc = acc ++ qs.flatten := by
  induction qs with
  | nil => intro acc _; simp
  | cons q rest ih =>
    intro acc h
    simp only [disjointChainB, Bool.and_eq_true, List.all_eq_true] at h
    obtain ⟨⟨hnodup, hfresh⟩, hchain⟩ := h
    have hq : smMergeFields acc q = acc ++ q := by
      refine smMergeFields_disjoint q acc hnodup ?_
      intro kv hkv
      have := hfresh kv hkv
      simp only [Bool.and_eq_true, Bool.not_eq_true', Option.isNone_iff_eq_none] at this
      exact this
    simp only [List.foldl_cons, hq, List.flatten_cons]
    rw [ih _ hchain, List.append_assoc]

/-- Amended C8: for a sequence of strategic-merge patches sharing one
target identity, in which every patch after the first has
duplicate-free top-level keys, carries no top-level delete directive,
and binds no top-level key already bound by an earlier patch of the
sequence, merging the patches into one consolidated patch and applying
it once yields a field-tree identical to applying the patches
sequentially in input order. -/
theorem mergeThenApply_of_disjointChain (t f : List (String × Value))
    (rest : List (List (String × Value)))
    (h : disjointChainB f rest = true) :
    smMergeFields t (mergePatchesFields (f :: rest))
      = (f :: rest).foldl smMergeFields t := by
  have h1 : mergePatchesFields (f :: rest) = f ++ rest.flatten := by
    simp only [mergePatchesFields]
    exact foldl_disjointChain rest f h
  rw [h1, smMergeFields_append, List.foldl_cons, foldl_smMergeFields_flatten]

/-- Witness for the amended C8 on a concrete two-patch sequence (the
first patch may even carry a delete directive). -/
theorem mergeThenApply_of_disjointChain_witness :
    (disjointChainB [("a", Value.num 1), ("b", Value.null)] [[("c", Value.num 2)]] = true)
    ∧ (smMergeFields [("a", Value.num 0)]
        (mergePatchesFields [[("a", Value.num 1), ("b", Value.null)], [("c", Value.num 2)]])
      = [[("a", Value.num 1), ("b", Value.null)], [("c", Value.num 2)]].foldl
          smMergeFields [("a", Value.num 0)]) := by
  refine ⟨?_, ?_⟩
  · simp [disjointChainB, nodupKeysB, keyMem, isNull, lookupF]
  · exact mergeThenApply_of_disjointChain _ _ _
      (by simp [disjointChainB, nodupKeysB, keyMem, isNull, lookupF])

/-- Counterexample to C8 as stated: the side condition (no field touched
by a delete directive and a later non-delete directive) holds for the
sequence consisting of a patch setting field a and a later patch
deleting field a, yet consolidating loses the delete directive, so
merge-then-apply differs from sequential application. -/
theorem mergeThenApply_counterexample :
    (noDeleteThenNonDelete [[("a", Value.num 1)], [("a", Value.null)]] = true)
    ∧ smMergeFields [("a", Value.num 0)]
        (mergePatchesFields [[("a", Value.num 1)], [("a", Value.null)]])
      ≠ [[("a", Value.num 1)], [("a", Value.null)]].foldl
          smMergeFields [("a", Value.num 0)] := by
  constructor
  · simp [noDeleteThenNonDelete, deleteTouches, nonDeleteTouches, touchPathsF, touchPathsV]
  · have hmerged : mergePatchesFields [[("a", Value.num 1)], [("a", Value.null)]] = [] := by
      simp [mergePatchesFields, smMergeFields, smMergeStep, isNull, eraseF]
    have hseq : ([[("a", Value.num 1)], [("a", Value.null)]].foldl
        smMergeFields [("a", Value.num 0)]) = [] := by
      simp [smMergeFields, smMergeStep, isNull, eraseF, lookupF, setF, smMerge]
    rw [hmerged, hseq]
    simp [smMergeFields]

theorem lookupF_setF_self (fs : List (String × Value)) (k : String) (v : Value) :
    lookupF (setF fs k v) k = some v := by
  induction fs with
  | nil => simp [setF, lookupF]
  | cons kv rest ih =>
    match kv with
    | (k2, v2) =>
      by_cases h : k2 = k
      · simp [setF, h, lookupF]
      · simp [setF, h, lookupF, ih]

theorem lookupF_setF_ne (fs : List (String × Value)) (k k2 : String) (v : Value)
    (h : ¬(k = k2)) : lookupF (setF fs k v) k2 = lookupF fs k2 := by
  induction fs with
  | nil => simp [setF, lookupF, h]
  | cons kv rest ih =>
    match kv with
    | (k3, v3) =>
      by_cases h3 : k3 = k
      · subst h3
        simp [setF, lookupF, h]
      · simp [setF, h3, lookupF, ih]

theorem setFieldPath_single (v : Value) (k : String) (nv : Value) :
    ∃ ms, setFieldPath v [k] nv = Value.obj ms
      ∧ lookupF ms k = some nv
      ∧ ∀ k2, ¬(k = k2) → lookupF ms k2 =
          (match v with
           | Value.obj fs => lookupF fs k2
           | _ => none) := by
  cases v with
  | obj fs =>
    refine ⟨setF fs k nv, by simp [setFieldPath], lookupF_setF_self fs k nv, ?_⟩
    intro k2 hk2
    simpa using lookupF_setF_ne fs k k2 nv hk2
  | null =>
    refine ⟨[(k, nv)], by simp [setFieldPath], by simp [lookupF], ?_⟩
    intro k2 hk2
    simp [lookupF, hk2]
  | bool b =>
    refine ⟨[(k, nv)], by simp [setFieldPath], by simp [lookupF], ?_⟩
    intro k2 hk2
    simp [lookupF, hk2]
  | num n =>
    refine ⟨[(k, nv)], by simp [setFieldPath], by simp [lookupF], ?_⟩
    intro k2 hk2
    simp [lookupF, hk2]
  | str s =>
    refine ⟨[(k, nv)], by simp [setFieldPath], by simp [lookupF], ?_⟩
    intro k2 hk2
    simp [lookupF, hk2]
  | arr xs =>
    refine ⟨[(k, nv)], by simp [setFieldPath], by simp [lookupF], ?_⟩
    intro k2 hk2
    simp [lookupF, hk2]

theorem stampPatch_identity (patch target : Resource) :
    resName (stampPatch patch target) = resName target
    ∧ resNamespace (stampPatch patch target) = resNamespace target
    ∧ resApiVersion (stampPatch patch target) = resApiVersion target
    ∧ resKind (stampPatch patch target) = resKind target := by
  obtain ⟨ms1, hM1eq, hM1self, hM1ne⟩ :=
    setFieldPath_single ((lookupF patch.fields "metadata").getD (Value.obj []))
      "name" (Value.str (resName target))
  obtain ⟨ms2, hM2eq, hM2self, hM2ne⟩ :=
    setFieldPath_single (Value.obj ms1) "namespace" (Value.str (resNamespace target))
  have hf1 : (setResName patch (resName target)).fields
      = setF patch.fields "metadata" (Value.obj ms1) := by
    simp [setResName, setFieldsPath, hM1eq]
  have hf2 : (setResNamespace (setResName patch (resName target))
      (resNamespace target)).fields
      = setF (setF patch.fields "metadata" (Value.obj ms1)) "metadata" (Value.obj ms2) := by
    simp only [setResNamespace, setFieldsPath, hf1]
    rw [lookupF_setF_self]
    simp only [Option.getD_some]
    rw [← hM2eq]
  have hstamp : (stampPatch patch target).fields
      = setF (setF (setF (setF patch.fields "metadata" (Value.obj ms1)) "metadata"
          (Value.obj ms2)) "apiVersion" (Value.str (resApiVersion target))) "kind"
          (Value.str (resKind target)) := by
    simp only [stampPatch, setResGvk, setFieldsPath, hf2, setFieldPath]
  have hmeta : lookupF (stampPatch patch target).fields "metadata" = some (Value.obj ms2) := by
    rw [hstamp]
    rw [lookupF_setF_ne _ _ _ _ (by decide), lookupF_setF_ne _ _ _ _ (by decide)]
    exact lookupF_setF_self _ _ _
  refine ⟨?_, ?_, ?_, ?_⟩
  · have hname : lookupF ms2 "name" = lookupF ms1 "name" := by
      simpa using hM2ne "name" (by decide)
    simp only [resName, getStrAt, getFieldPath, hmeta, hname, hM1self]
  · simp only [resNamespace, getStrAt, getFieldPath, hmeta, hM2self]
  · have hav : lookupF (stampPatch patch target).fields "apiVersion"
        = some (Value.str (resApiVersion target)) := by
      rw [hstamp]
      rw [lookupF_setF_ne _ _ _ _ (by decide)]
      exact lookupF_setF_self _ _ _
    simp only [resApiVersion, getStrAt, getFieldPath, hav]
  · have hkd : lookupF (stampPatch patch target).fields "kind"
        = some (Value.str (resKind target)) := by
      rw [hstamp]
      exact lookupF_setF_self _ _ _
    simp only [resKind, getStrAt, getFieldPath, hkd]

theorem ptSelLoop_eq_map (yamlSupport : Bool) (patch : Resource) (sel : Resource → Bool)
    (m : List Resource) :
    ptSelLoop yamlSupport patch sel m
      = m.map (fun r => if sel r then applySMPatch yamlSupport r (stampPatch patch r) else r) := by
  induction m with
  | nil => simp [ptSelLoop]
  | cons r rest ih => simp [ptSelLoop, ih]

/-- C3: for a strategic-merge patch resolved through an explicit target
selector, every matched resource is mutated independently with its own
stamped patch copy, and the copy carries the name, namespace and
group/version/kind of that resource in place of the identity fields the
original patch carried. -/
theorem transformStrategicMerge_fanOut_identity (yamlSupport : Bool)
    (sel : Resource → Bool) (m : List Resource) (patch : Resource) :
    transformStrategicMerge yamlSupport (some sel) m patch
      = Except.ok (m.map (fun r =>
          if sel r then applySMPatch yamlSupport r (stampPatch patch r) else r))
    ∧ ∀ target : Resource,
        resName (stampPatch patch target) = resName target
        ∧ resNamespace (stampPatch patch target) = resNamespace target
        ∧ resApiVersion (stampPatch patch target) = resApiVersion target
        ∧ resKind (stampPatch patch target) = resKind target := by
  constructor
  · simp [transformStrategicMerge, ptSelLoop_eq_map]
  · intro target
    exact stampPatch_identity patch target

theorem psmt_map_filter (m : List Resource) (tid : ResId)
    (hOther : ∀ r ∈ m, resId r = resId (Resource.mk []) → resId r = tid) :
    ((m.map (fun r => if resId r == tid then Resource.mk [] else r)).filter
        (fun r => !(resId r == resId (Resource.mk []))))
      = m.filter (fun r => !(resId r == tid)) := by
  induction m with
  | nil => rfl
  | cons r rest ih =>
    have hOther2 : ∀ x ∈ rest, resId x = resId (Resource.mk []) → resId x = tid :=
      fun x hx => hOther x (List.mem_cons_of_mem _ hx)
    by_cases h : resId r = tid
    · have hc1 : (resId r == tid) = true := by simp [h]
      simp only [List.map_cons, List.filter_cons, hc1]
      simp only [ih hOther2]
      simp
    · have hne2 : ¬(resId r = resId (Resource.mk [])) := by
        intro he
        exact h (hOther r (List.mem_cons_self _ _) he)
      have hc1 : (resId r == tid) = false := by simp [h]
      simp only [List.map_cons, List.filter_cons, hc1]
      simp only [ih hOther2]
      simp [hne2]

theorem filter_ne_id_length (m : List Resource) (tid : ResId) :
    (∃ r ∈ m, resId r = tid) → (m.map resId).Nodup →
      (m.filter (fun r => !(resId r == tid))).length + 1 = m.length := by
  induction m with
  | nil =>
    intro h _
    simp at h
  | cons r rest ih =>
    intro htarget hUniq
    simp only [List.map_cons, List.nodup_cons] at hUniq
    by_cases h : resId r = tid
    · have hall : ∀ x ∈ rest, ¬(resId x = tid) := by
        intro x hx he
        exact hUniq.1 (by rw [h, ← he]; exact List.mem_map_of_mem resId hx)
      have hfr : rest.filter (fun x => !(resId x == tid)) = rest := by
        apply List.filter_eq_self.mpr
        intro x hx
        simp [hall x hx]
      simp [h, hfr]
    · obtain ⟨r2, hr2, hr2id⟩ := htarget
      rcases List.mem_cons.mp hr2 with heq | hr2rest
      · exact absurd (heq ▸ hr2id) h
      · have hrec := ih ⟨r2, hr2rest, hr2id⟩ hUniq.2
        simp only [List.filter_cons]
        have : (!(resId r == tid)) = true := by simp [h]
        rw [this]
        simp only [if_true, List.length_cons]
        omega

/-- Amended C2: in the multi-patch strategic-merge transformer, a patch
application that removes every field from its target T makes the pass
remove T from the collection: T is absent afterwards, the collection
size has decreased by exactly one, and every other resource is kept
unchanged.  The single-patch transformer, by contrast, keeps the emptied
resource (see the counterexample). -/
theorem psmtStep_cascading_deletion (yamlSupport : Bool) (m : List Resource)
    (patch target : Resource)
    (hfind : getById m (resId patch) = some target)
    (hUniq : (m.map resId).Nodup)
    (hEmpty : (psmtApplyPatch yamlSupport target patch).fields = [])
    (hOther : ∀ r ∈ m, resId r = resId (Resource.mk []) → resId r = resId target) :
    psmtStep yamlSupport m patch
      = Except.ok (m.filter (fun r => !(resId r == resId target)))
    ∧ (m.filter (fun r => !(resId r == resId target))).length + 1 = m.length
    ∧ ∀ r ∈ m.filter (fun r => !(resId r == resId target)), ¬(resId r = resId target) := by
  have htmem : target ∈ m := List.mem_of_find?_eq_some hfind
  have ht2 : psmtApplyPatch yamlSupport target patch = Resource.mk [] := by
    cases hp : psmtApplyPatch yamlSupport target patch with
    | mk fs =>
      rw [hp] at hEmpty
      simp only at hEmpty
      rw [hEmpty]
  have hkept : ((replaceById m (resId target) (Resource.mk [])).filter
      (fun r => !(resId r == resId (Resource.mk []))))
      = m.filter (fun r => !(resId r == resId target)) := by
    simpa [replaceById] using psmt_map_filter m (resId target) hOther
  have hlen : (m.filter (fun r => !(resId r == resId target))).length + 1 = m.length :=
    filter_ne_id_length m (resId target) ⟨target, htmem, rfl⟩ hUniq
  have hmaplen : (replaceById m (resId target) (Resource.mk [])).length = m.length := by
    simp [replaceById]
  have hremove : removeById (replaceById m (resId target) (Resource.mk []))
      (resId (Resource.mk []))
      = Except.ok (m.filter (fun r => !(resId r == resId target))) := by
    simp only [removeById, hkept]
    rw [if_pos]
    · rw [hmaplen]
      exact hlen
  have hstep : psmtStep yamlSupport m patch
      = Except.ok (m.filter (fun r => !(resId r == resId target))) := by
    simp only [psmtStep, hfind, ht2]
    simpa [List.isEmpty_nil] using hremove
  refine ⟨hstep, hlen, ?_⟩
  intro r hr
  have := (List.mem_filter.mp hr).2
  simpa using this

/-- Witness for the amended C2: a two-resource collection where the
strategic-merge patch nulls out every field of its target; the pass
removes the target and keeps the other resource unchanged. -/
theorem psmtStep_cascading_deletion_witness :
    (getById [Resource.mk [("spec", Value.num 1)],
        Resource.mk [("apiVersion", Value.str "v1"), ("kind", Value.str "B"),
          ("metadata", Value.obj [("name", Value.str "u")])]]
        (resId (Resource.mk [("spec", Value.null)]))
      = some (Resource.mk [("spec", Value.num 1)]))
    ∧ ((psmtApplyPatch false (Resource.mk [("spec", Value.num 1)])
        (Resource.mk [("spec", Value.null)])).fields = [])
    ∧ (psmtStep false
        [Resource.mk [("spec", Value.num 1)],
          Resource.mk [("apiVersion", Value.str "v1"), ("kind", Value.str "B"),
            ("metadata", Value.obj [("name", Value.str "u")])]]
        (Resource.mk [("spec", Value.null)])
      = Except.ok ([Resource.mk [("spec", Value.num 1)],
          Resource.mk [("apiVersion", Value.str "v1"), ("kind", Value.str "B"),
            ("metadata", Value.obj [("name", Value.str "u")])]].filter
          (fun r => !(resId r == resId (Resource.mk [("spec", Value.num 1)]))))) := by
  have hEmpty : (psmtApplyPatch false (Resource.mk [("spec", Value.num 1)])
      (Resource.mk [("spec", Value.null)])).fields = [] := by
    simp [psmtApplyPatch, smMergeFields, smMergeStep, isNull, eraseF]
  refine ⟨rfl, hEmpty, ?_⟩
  exact (psmtStep_cascading_deletion false
    [Resource.mk [("spec", Value.num 1)],
      Resource.mk [("apiVersion", Value.str "v1"), ("kind", Value.str "B"),
        ("metadata", Value.obj [("name", Value.str "u")])]]
    (Resource.mk [("spec", Value.null)]) (Resource.mk [("spec", Value.num 1)])
    rfl (by decide) hEmpty (by decide)).1

/-- Counterexample to C2 as stated: the single-patch transformer applies
a strategic-merge patch that empties its target, yet the emptied
resource stays in the collection and the collection size does not
decrease. -/
theorem transformStrategicMerge_keeps_emptied_resource :
    transformStrategicMerge false none [Resource.mk [("spec", Value.num 1)]]
        (Resource.mk [("spec", Value.null)])
      = Except.ok [Resource.mk []]
    ∧ ([Resource.mk []] : List Resource).length
        ≠ ([Resource.mk [("spec", Value.num 1)]] : List Resource).length - 1 := by
  constructor
  · have hfind : getById [Resource.mk [("spec", Value.num 1)]]
        (resId (Resource.mk [("spec", Value.null)]))
        = some (Resource.mk [("spec", Value.num 1)]) := rfl
    have happ : applySMPatch false (Resource.mk [("spec", Value.num 1)])
        (Resource.mk [("spec", Value.null)]) = Resource.mk [] := by
      simp [applySMPatch, smMergeFields, smMergeStep, isNull, eraseF]
    simp only [transformStrategicMerge, hfind, happ]
    simp [replaceById]
  · simp

theorem lookupF_none_keyMem {fs : List (String × Value)} {k : String} :
    lookupF fs k = none ↔ keyMem k fs = false := by
  induction fs with
  | nil => simp [lookupF, keyMem]
  | cons kv rest ih =>
    obtain ⟨k2, v2⟩ := kv
    by_cases h : k2 = k <;> simp [lookupF, keyMem, h, ih]

theorem keyMem_append (k : String) (a b : List (String × Value)) :
    keyMem k (a ++ b) = (keyMem k a || keyMem k b) := by
  induction a with
  | nil => simp [keyMem]
  | cons kv rest ih =>
    obtain ⟨k2, v2⟩ := kv
    simp [keyMem, ih, Bool.or_assoc]

theorem keyMem_setF (k2 k : String) (v : Value) (fs : List (String × Value)) :
    keyMem k2 (setF fs k v) = (keyMem k2 fs || k == k2) := by
  induction fs with
  | nil => simp [setF, keyMem]
  | cons kv rest ih =>
    obtain ⟨k3, v3⟩ := kv
    by_cases h : k3 = k
    · subst h
      by_cases h2 : (k3 == k2) <;> simp [setF, keyMem, h2, Bool.or_assoc, Bool.or_comm]
    · simp [setF, h, keyMem, ih, Bool.or_assoc]

theorem lookupF_eraseF_ne {k2 k : String} (h : ¬(k2 = k)) (fs : List (String × Value)) :
    lookupF (eraseF fs k) k2 = lookupF fs k2 := by
  induction fs with
  | nil => simp [eraseF, lookupF]
  | cons kv rest ih =>
    obtain ⟨k3, v3⟩ := kv
    by_cases h3 : k3 = k
    · have hk2 : ¬(k = k2) := fun hh => h hh.symm
      simp [eraseF, List.filter_cons, h3, lookupF, hk2] at ih ⊢
      exact ih
    · by_cases h4 : k3 = k2 <;>
        simp [eraseF, List.filter_cons, h3, lookupF, h4, h] at ih ⊢ <;>
        try exact ih

theorem keyMem_eraseF_imp {k2 k : String} {fs : List (String × Value)}
    (h : keyMem k2 (eraseF fs k) = true) : keyMem k2 fs = true := by
  induction fs with
  | nil => simpa [eraseF, keyMem] using h
  | cons kv rest ih =>
    obtain ⟨k3, v3⟩ := kv
    by_cases h3 : k3 = k
    · have h2 : keyMem k2 (eraseF rest k) = true := by
        simpa [eraseF, List.filter_cons, h3] using h
      simp [keyMem, ih h2]
    · rw [eraseF, List.filter_cons, if_pos (by simpa using h3)] at h
      simp only [keyMem, Bool.or_eq_true] at h ⊢
      rcases h with h | h
      · exact Or.inl h
      · exact Or.inr (ih h)

theorem nodupKeysB_setF {fs : List (String × Value)} {k : String} (v : Value)
    (h : nodupKeysB fs = true) : nodupKeysB (setF fs k v) = true := by
  induction fs with
  | nil => simp [setF, nodupKeysB, keyMem]
  | cons kv rest ih =>
    obtain ⟨k2, v2⟩ := kv
    simp only [nodupKeysB, Bool.and_eq_true, Bool.not_eq_true'] at h
    by_cases h2 : k2 = k
    · subst h2
      simp [setF, nodupKeysB, h.1, h.2]
    · simp only [setF, if_neg h2, nodupKeysB, Bool.and_eq_true, Bool.not_eq_true']
      refine ⟨?_, ih h.2⟩
      rw [keyMem_setF]
      simp only [h.1, Bool.false_or]
      simpa using fun hh => h2 hh.symm

theorem nodupKeysB_eraseF {fs : List (String × Value)} (k : String)
    (h : nodupKeysB fs = true) : nodupKeysB (eraseF fs k) = true := by
  induction fs with
  | nil => simp [eraseF, nodupKeysB]
  | cons kv rest ih =>
    obtain ⟨k2, v2⟩ := kv
    simp only [nodupKeysB, Bool.and_eq_true, Bool.not_eq_true'] at h
    by_cases h2 : k2 = k
    · simp only [eraseF, List.filter_cons]
      rw [if_neg (by simp [h2])]
      exact ih h.2
    · simp only [eraseF, List.filter_cons]
      rw [if_pos (by simp [h2])]
      simp only [nodupKeysB, Bool.and_eq_true, Bool.not_eq_true']
      have hkm2 : keyMem k2 (eraseF rest k) = false := by
        cases hkm : keyMem k2 (eraseF rest k)
        · rfl
        · rw [keyMem_eraseF_imp hkm] at h
          exact absurd h.1 (by simp)
      exact ⟨hkm2, ih h.2⟩

theorem nodupKeysB_append_single {fs : List (String × Value)} {k : String} (v : Value)
    (hl : lookupF fs k = none) (h : nodupKeysB fs = true) :
    nodupKeysB (fs ++ [(k, v)]) = true := by
  induction fs with
  | nil => simp [nodupKeysB, keyMem]
  | cons kv rest ih =>
    obtain ⟨k2, v2⟩ := kv
    simp only [nodupKeysB, Bool.and_eq_true, Bool.not_eq_true'] at h
    have hne : ¬(k2 = k) := by
      intro hh
      simp [lookupF, hh] at hl
    have hl2 : lookupF rest k = none := by
      simpa [lookupF, hne] using hl
    simp only [List.cons_append, nodupKeysB, Bool.and_eq_true, Bool.not_eq_true']
    refine ⟨?_, ih hl2 h.2⟩
    have hkk : (k == k2) = false := by
      simp only [beq_eq_false_iff_ne, ne_eq]
      intro hh
      exact hne hh.symm
    simp [keyMem_append, h.1, keyMem, hkk]

theorem wfFieldsB_lookup {fs : List (String × Value)} {k : String} {v : Value}
    (hwf : wfFieldsB fs = true) (hl : lookupF fs k = some v) : wfV v = true := by
  induction fs with
  | nil => simp [lookupF] at hl
  | cons kv rest ih =>
    obtain ⟨k2, v2⟩ := kv
    simp only [wfFieldsB, Bool.and_eq_true] at hwf
    by_cases h2 : k2 = k
    · simp only [lookupF, if_pos h2] at hl
      cases hl
      exact hwf.1
    · simp only [lookupF, if_neg h2] at hl
      exact ih hwf.2 hl

theorem wfFieldsB_setF {fs : List (String × Value)} {k : String} {v : Value}
    (hwf : wfFieldsB fs = true) (hv : wfV v = true) : wfFieldsB (setF fs k v) = true := by
  induction fs with
  | nil => simp [setF, wfFieldsB, hv]
  | cons kv rest ih =>
    obtain ⟨k2, v2⟩ := kv
    simp only [wfFieldsB, Bool.and_eq_true] at hwf
    by_cases h2 : k2 = k
    · simp [setF, h2, wfFieldsB, hv, hwf.2]
    · simp [setF, h2, wfFieldsB, hwf.1, ih hwf.2]

theorem wfFieldsB_eraseF {fs : List (String × Value)} (k : String)
    (hwf : wfFieldsB fs = true) : wfFieldsB (eraseF fs k) = true := by
  induction fs with
  | nil => simp [eraseF, wfFieldsB]
  | cons kv rest ih =>
    obtain ⟨k2, v2⟩ := kv
    simp only [wfFieldsB, Bool.and_eq_true] at hwf
    by_cases h2 : k2 = k
    · simp only [eraseF, List.filter_cons]
      rw [if_neg (by simp [h2])]
      exact ih hwf.2
    · simp only [eraseF, List.filter_cons]
      rw [if_pos (by simp [h2])]
      simp only [wfFieldsB, Bool.and_eq_true]
      exact ⟨hwf.1, ih hwf.2⟩

theorem wfFieldsB_append_single {fs : List (String × Value)} {k : String} {v : Value}
    (hwf : wfFieldsB fs = true) (hv : wfV v = true) :
    wfFieldsB (fs ++ [(k, v)]) = true := by
  induction fs with
  | nil => simp [wfFieldsB, hv]
  | cons kv rest ih =>
    obtain ⟨k2, v2⟩ := kv
    simp only [wfFieldsB, Bool.and_eq_true] at hwf
    simp only [List.cons_append, wfFieldsB, Bool.and_eq_true]
    exact ⟨hwf.1, ih hwf.2⟩

theorem treeKeep_nil_patch (t : List (String × Value)) : treeKeep t [] = t := by
  induction t with
  | nil => simp [treeKeep]
  | cons kv rest ih =>
    obtain ⟨k, tv⟩ := kv
    simp [treeKeep, lookupF, ih]

theorem treeMergeFields_nil_patch (t : List (String × Value)) :
    treeMergeFields t [] = t := by
  simp [treeMergeFields, treeKeep_nil_patch, addNewFields]

theorem lookupElem_none_elemMem {xs : List Value} {kv : SKey} :
    lookupElem xs kv = none ↔ elemMem kv xs = false := by
  induction xs with
  | nil => simp [lookupElem, elemMem]
  | cons x rest ih =>
    by_cases h : elemKey x = some kv <;> simp [lookupElem, elemMem, h, ih]

theorem elemMem_append (kv : SKey) (a b : List Value) :
    elemMem kv (a ++ b) = (elemMem kv a || elemMem kv b) := by
  induction a with
  | nil => simp [elemMem]
  | cons x rest ih => simp [elemMem, ih, Bool.or_assoc]

theorem elemMem_false_ne {kv : SKey} {xs : List Value}
    (h : elemMem kv xs = false) : ∀ x ∈ xs, ¬(elemKey x = some kv) := by
  induction xs with
  | nil => intro x hx; simp at hx
  | cons x2 rest ih =>
    intro x hx
    simp only [elemMem, Bool.or_eq_false_iff] at h
    rcases List.mem_cons.mp hx with h1 | h2
    · subst h1
      simpa using h.1
    · exact ih h.2 x h2

theorem elemMem_setElem {xs : List Value} {kv : SKey} {te v2 : Value}
    (hfind : lookupElem xs kv = some te) (hk : elemKey v2 = some kv) (kv2 : SKey) :
    elemMem kv2 (setElem xs kv v2) = elemMem kv2 xs := by
  induction xs with
  | nil => simp [lookupElem] at hfind
  | cons x rest ih =>
    by_cases h : elemKey x = some kv
    · simp [setElem, h, elemMem, hk]
    · simp only [lookupElem, if_neg h] at hfind
      simp [setElem, h, elemMem, ih hfind]

theorem wfArrB_lookupElem {xs : List Value} {kv : SKey} {te : Value}
    (hwf : wfArrB xs = true) (hfind : lookupElem xs kv = some te) : wfV te = true := by
  induction xs with
  | nil => simp [lookupElem] at hfind
  | cons x rest ih =>
    simp only [wfArrB, Bool.and_eq_true] at hwf
    by_cases h : elemKey x = some kv
    · simp only [lookupElem, if_pos h] at hfind
      cases hfind
      exact hwf.1
    · simp only [lookupElem, if_neg h] at hfind
      exact ih hwf.2 hfind

theorem wfArrB_setElem {xs : List Value} {kv : SKey} {v2 : Value}
    (hwf : wfArrB xs = true) (hv : wfV v2 = true) : wfArrB (setElem xs kv v2) = true := by
  induction xs with
  | nil => simp [setElem, wfArrB, hv]
  | cons x rest ih =>
    simp only [wfArrB, Bool.and_eq_true] at hwf
    by_cases h : elemKey x = some kv
    · simp [setElem, h, wfArrB, hv, hwf.2]
    · simp [setElem, h, wfArrB, hwf.1, ih hwf.2]

theorem wfArrB_append_single {xs : List Value} {v : Value}
    (hwf : wfArrB xs = true) (hv : wfV v = true) : wfArrB (xs ++ [v]) = true := by
  induction xs with
  | nil => simp [wfArrB, hv]
  | cons x rest ih =>
    simp only [wfArrB, Bool.and_eq_true] at hwf
    simp only [List.cons_append, wfArrB, Bool.and_eq_true]
    exact ⟨hwf.1, ih hwf.2⟩

theorem nodupElem_setElem {xs : List Value} {kv : SKey} {te v2 : Value}
    (hnd : nodupElemKeysB xs = true) (hfind : lookupElem xs kv = some te)
    (hk : elemKey v2 = some kv) : nodupElemKeysB (setElem xs kv v2) = true := by
  induction xs with
  | nil => simp [lookupElem] at hfind
  | cons x rest ih =>
    simp only [nodupElemKeysB, Bool.and_eq_true] at hnd
    by_cases h : elemKey x = some kv
    · simp only [setElem, if_pos h, nodupElemKeysB, Bool.and_eq_true, hk]
      refine ⟨?_, hnd.2⟩
      have := hnd.1
      rw [h] at this
      simpa using this
    · simp only [lookupElem, if_neg h] at hfind
      simp only [setElem, if_neg h, nodupElemKeysB, Bool.and_eq_true]
      refine ⟨?_, ih hnd.2 hfind⟩
      cases hkx : elemKey x with
      | none => simp
      | some kx =>
        have h1 := hnd.1
        rw [hkx] at h1
        simp only [Bool.not_eq_true'] at h1 ⊢
        rw [elemMem_setElem hfind hk]
        exact h1

theorem nodupElem_append_single {xs : List Value} {v : Value}
    (hnd : nodupElemKeysB xs = true)
    (hfresh : ∀ kv, elemKey v = some kv → elemMem kv xs = false) :
    nodupElemKeysB (xs ++ [v]) = true := by
  induction xs with
  | nil =>
    simp only [List.nil_append]
    cases hkv : elemKey v with
    | none => simp [nodupElemKeysB, hkv]
    | some kv => simp [nodupElemKeysB, elemMem, hkv]
  | cons x rest ih =>
    simp only [nodupElemKeysB, Bool.and_eq_true] at hnd
    have hfresh2 : ∀ kv, elemKey v = some kv → elemMem kv rest = false := by
      intro kv hkv
      have := hfresh kv hkv
      simp only [elemMem, Bool.or_eq_false_iff] at this
      exact this.2
    simp only [List.cons_append, nodupElemKeysB, Bool.and_eq_true]
    refine ⟨?_, ih hnd.2 hfresh2⟩
    cases hkx : elemKey x with
    | none => simp
    | some kx =>
      have h1 := hnd.1
      rw [hkx] at h1
      have h1b : (!(elemMem kx rest)) = true := h1
      simp only [Bool.not_eq_true'] at h1b
      show (!(elemMem kx (rest ++ [v]))) = true
      simp only [Bool.not_eq_true', elemMem_append, h1b, Bool.false_or]
      cases hkv : elemKey v with
      | none => simp [elemMem, hkv]
      | some kv =>
        have h2 := hfresh kv hkv
        simp only [elemMem, Bool.or_eq_false_iff] at h2
        have h3 := h2.1
        rw [hkx] at h3
        have h4 : ¬(kx = kv) := by simpa using h3
        simp only [elemMem, hkv, Bool.or_false, beq_eq_false_iff_ne, ne_eq,
          Option.some.injEq]
        intro hh
        exact h4 hh.symm

theorem skeyOf_isNull {kv0 : Value} {kv : SKey} (h : skeyOf kv0 = some kv) :
    isNull kv0 = false := by
  cases kv0 <;> simp [skeyOf, isNull] at h ⊢

theorem skeyOf_smMerge {kv0 : Value} {kv : SKey} (h : skeyOf kv0 = some kv)
    (old : Value) : smMerge old kv0 = kv0 := by
  cases kv0 <;> simp [skeyOf] at h <;> cases old <;> simp [smMerge]

theorem lookupF_smMergeStep_ne {k2 k : String} (h : ¬(k2 = k))
    (t : List (String × Value)) (v : Value) :
    lookupF (smMergeStep t k2 v) k = lookupF t k := by
  have hne : ¬(k = k2) := fun hh => h hh.symm
  cases hnull : isNull v with
  | true =>
    rw [smMergeStep, if_pos (by simp [hnull])]
    exact lookupF_eraseF_ne hne t
  | false =>
    rw [smMergeStep, if_neg (by simp [hnull])]
    cases hl : lookupF t k2 with
    | some old => exact lookupF_setF_ne t k2 k _ h
    | none =>
      rw [lookupF_append]
      cases hc : lookupF t k with
      | none => simp [hc, lookupF, h]
      | some u => simp [hc]

theorem lookupF_smMergeFields_absent {k : String} {p : List (String × Value)}
    (h : keyMem k p = false) (t : List (String × Value)) :
    lookupF (smMergeFields t p) k = lookupF t k := by
  induction p generalizing t with
  | nil => simp [smMergeFields]
  | cons kv rest ih =>
    obtain ⟨k2, v2⟩ := kv
    simp only [keyMem, Bool.or_eq_false_iff] at h
    have hne : ¬(k2 = k) := by
      have h1 := h.1
      intro hh
      simp [hh] at h1
    calc lookupF (smMergeFields t ((k2, v2) :: rest)) k
        = lookupF (smMergeFields (smMergeStep t k2 v2) rest) k := by
          simp [smMergeFields]
      _ = lookupF (smMergeStep t k2 v2) k := ih h.2 _
      _ = lookupF t k := lookupF_smMergeStep_ne hne t v2

theorem lookupF_smMergeFields_patch {k : String} {p : List (String × Value)} {kv0 : Value}
    (hnd : nodupKeysB p = true) (hl : lookupF p k = some kv0)
    (hnull : isNull kv0 = false) (hrep : ∀ old, smMerge old kv0 = kv0)
    (t : List (String × Value)) :
    lookupF (smMergeFields t p) k = some kv0 := by
  induction p generalizing t with
  | nil => simp [lookupF] at hl
  | cons kv rest ih =>
    obtain ⟨k2, v2⟩ := kv
    simp only [nodupKeysB, Bool.and_eq_true, Bool.not_eq_true'] at hnd
    by_cases h2 : k2 = k
    · have hv2 : v2 = kv0 := by
        simpa [lookupF, h2] using hl
      subst hv2
      subst h2
      have hstep : lookupF (smMergeStep t k2 v2) k2 = some v2 := by
        rw [smMergeStep, if_neg (by simp [hnull])]
        cases hc : lookupF t k2 with
        | some old =>
          show lookupF (setF t k2 (smMerge old v2)) k2 = some v2
          rw [hrep old]
          exact lookupF_setF_self t k2 v2
        | none =>
          show lookupF (t ++ [(k2, v2)]) k2 = some v2
          rw [lookupF_append, hc]
          simp [lookupF]
      calc lookupF (smMergeFields t ((k2, v2) :: rest)) k2
          = lookupF (smMergeFields (smMergeStep t k2 v2) rest) k2 := by
            simp [smMergeFields]
        _ = lookupF (smMergeStep t k2 v2) k2 :=
            lookupF_smMergeFields_absent hnd.1 _
        _ = some v2 := hstep
    · have hl2 : lookupF rest k = some kv0 := by
        simpa [lookupF, h2] using hl
      calc lookupF (smMergeFields t ((k2, v2) :: rest)) k
          = lookupF (smMergeFields (smMergeStep t k2 v2) rest) k := by
            simp [smMergeFields]
        _ = some kv0 := ih hnd.2 hl2 _

theorem elemKey_smMerge {pe : Value} {kv : SKey} (hk : elemKey pe = some kv)
    (hwp : wfV pe = true) (te : Value) : elemKey (smMerge te pe) = some kv := by
  cases pe with
  | obj pfs =>
    have hnd : nodupKeysB pfs = true := by
      simp only [wfV, Bool.and_eq_true] at hwp
      exact hwp.1
    simp only [elemKey] at hk
    cases hl : lookupF pfs mergeKey with
    | none =>
      rw [hl] at hk
      simp at hk
    | some kv0 =>
      rw [hl] at hk
      cases te with
      | obj tfs =>
        have hk2 : skeyOf kv0 = some kv := hk
        have hres : lookupF (smMergeFields tfs pfs) mergeKey = some kv0 :=
          lookupF_smMergeFields_patch hnd hl (skeyOf_isNull hk2)
            (skeyOf_smMerge hk2) tfs
        simp only [smMerge, elemKey, hres]
        exact hk2
      | null => simpa [smMerge, elemKey, hl] using (hk : skeyOf kv0 = some kv)
      | bool b => simpa [smMerge, elemKey, hl] using (hk : skeyOf kv0 = some kv)
      | num m => simpa [smMerge, elemKey, hl] using (hk : skeyOf kv0 = some kv)
      | str s => simpa [smMerge, elemKey, hl] using (hk : skeyOf kv0 = some kv)
      | arr xs => simpa [smMerge, elemKey, hl] using (hk : skeyOf kv0 = some kv)
  | null => simp [elemKey] at hk
  | bool b => simp [elemKey] at hk
  | num m => simp [elemKey] at hk
  | str s => simp [elemKey] at hk
  | arr xs => simp [elemKey] at hk

theorem wf_smMerge_all (n : Nat) :
    (∀ pv : Value, sizeOf pv < n → ∀ tv : Value, wfV tv = true → wfV pv = true →
      wfV (smMerge tv pv) = true)
    ∧ (∀ p : List (String × Value), sizeOf p < n →
      ∀ t : List (String × Value), nodupKeysB t = true → wfFieldsB t = true →
        nodupKeysB p = true → wfFieldsB p = true →
        nodupKeysB (smMergeFields t p) = true ∧ wfFieldsB (smMergeFields t p) = true)
    ∧ (∀ pxs : List Value, sizeOf pxs < n →
      ∀ txs : List Value, nodupElemKeysB txs = true → wfArrB txs = true →
        nodupElemKeysB pxs = true → wfArrB pxs = true →
        nodupElemKeysB (smMergeList txs pxs) = true
          ∧ wfArrB (smMergeList txs pxs) = true) := by
  induction n using Nat.strong_induction_on with
  | _ n ih =>
    refine ⟨?_, ?_, ?_⟩
    · intro pv hpv tv hwt hwp
      cases pv with
      | obj pfs =>
        cases tv with
        | obj tfs =>
          have hlt : sizeOf pfs < sizeOf (Value.obj pfs) := by
            simp only [Value.obj.sizeOf_spec]
            omega
          have hwt2 : nodupKeysB tfs = true ∧ wfFieldsB tfs = true := by
            simpa [wfV, Bool.and_eq_true] using hwt
          have hwp2 : nodupKeysB pfs = true ∧ wfFieldsB pfs = true := by
            simpa [wfV, Bool.and_eq_true] using hwp
          have hfld := (ih (sizeOf (Value.obj pfs)) hpv).2.1 pfs hlt tfs
            hwt2.1 hwt2.2 hwp2.1 hwp2.2
          simpa [smMerge, wfV, Bool.and_eq_true] using hfld
        | null => simpa [smMerge] using hwp
        | bool b => simpa [smMerge] using hwp
        | num m => simpa [smMerge] using hwp
        | str s => simpa [smMerge] using hwp
        | arr xs => simpa [smMerge] using hwp
      | null => cases tv <;> simpa [smMerge] using hwp
      | bool b => cases tv <;> simpa [smMerge] using hwp
      | num m => cases tv <;> simpa [smMerge] using hwp
      | str s => cases tv <;> simpa [smMerge] using hwp
      | arr pxs =>
        cases tv with
        | arr txs =>
          cases hg1 : keyedList txs with
          | false => simpa [smMerge, hg1] using hwp
          | true =>
            cases hg2 : keyedList pxs with
            | false => simpa [smMerge, hg1, hg2] using hwp
            | true =>
              have hlt : sizeOf pxs < sizeOf (Value.arr pxs) := by
                simp only [Value.arr.sizeOf_spec]
                omega
              have hwt2 : nodupElemKeysB txs = true ∧ wfArrB txs = true := by
                simpa [wfV, Bool.and_eq_true] using hwt
              have hwp2 : nodupElemKeysB pxs = true ∧ wfArrB pxs = true := by
                simpa [wfV, Bool.and_eq_true] using hwp
              have hlst := (ih (sizeOf (Value.arr pxs)) hpv).2.2 pxs hlt txs
                hwt2.1 hwt2.2 hwp2.1 hwp2.2
              simpa [smMerge, hg1, hg2, wfV, Bool.and_eq_true] using hlst
        | null => simpa [smMerge] using hwp
        | bool b => simpa [smMerge] using hwp
        | num m => simpa [smMerge] using hwp
        | str s => simpa [smMerge] using hwp
        | obj fs => simpa [smMerge] using hwp
    · intro p hp t hnt hwt hnp hwp
      cases p with
      | nil => simpa [smMergeFields] using ⟨hnt, hwt⟩
      | cons kv rest =>
        obtain ⟨k, v⟩ := kv
        have hnp2 : keyMem k rest = false ∧ nodupKeysB rest = true := by
          simpa [nodupKeysB, Bool.and_eq_true, Bool.not_eq_true'] using hnp
        have hwp2 : wfV v = true ∧ wfFieldsB rest = true := by
          simpa [wfFieldsB, Bool.and_eq_true] using hwp
        have hrest_lt : sizeOf rest < sizeOf ((k, v) :: rest) := by
          simp only [List.cons.sizeOf_spec]
          omega
        have hstep : nodupKeysB (smMergeStep t k v) = true
            ∧ wfFieldsB (smMergeStep t k v) = true := by
          cases hnull : isNull v with
          | true =>
            rw [smMergeStep, if_pos (by simp [hnull])]
            exact ⟨nodupKeysB_eraseF k hnt, wfFieldsB_eraseF k hwt⟩
          | false =>
            rw [smMergeStep, if_neg (by simp [hnull])]
            cases hl : lookupF t k with
            | some old =>
              have hold : wfV old = true := wfFieldsB_lookup hwt hl
              have hvlt : sizeOf v < sizeOf ((k, v) :: rest) := by
                simp only [List.cons.sizeOf_spec, Prod.mk.sizeOf_spec]
                omega
              have hmerge : wfV (smMerge old v) = true :=
                (ih (sizeOf ((k, v) :: rest)) hp).1 v hvlt old hold hwp2.1
              exact ⟨nodupKeysB_setF _ hnt, wfFieldsB_setF hwt hmerge⟩
            | none =>
              exact ⟨nodupKeysB_append_single v hl hnt,
                wfFieldsB_append_single hwt hwp2.1⟩
        have hrec := (ih (sizeOf ((k, v) :: rest)) hp).2.1 rest hrest_lt
          (smMergeStep t k v) hstep.1 hstep.2 hnp2.2 hwp2.2
        simpa [smMergeFields] using hrec
    · intro pxs hp txs hnt hwt hnp hwp
      cases pxs with
      | nil => simpa [smMergeList] using ⟨hnt, hwt⟩
      | cons pe rest =>
        have hnp2 : nodupElemKeysB rest = true := by
          have := hnp
          simp only [nodupElemKeysB, Bool.and_eq_true] at this
          exact this.2
        have hwp2 : wfV pe = true ∧ wfArrB rest = true := by
          simpa [wfArrB, Bool.and_eq_true] using hwp
        have hrest_lt : sizeOf rest < sizeOf (pe :: rest) := by
          simp only [List.cons.sizeOf_spec]
          omega
        have hpelt : sizeOf pe < sizeOf (pe :: rest) := by
          simp only [List.cons.sizeOf_spec]
          omega
        have hstep : nodupElemKeysB (smElemStep txs pe) = true
            ∧ wfArrB (smElemStep txs pe) = true := by
          cases hk : elemKey pe with
          | none =>
            have hunf : smElemStep txs pe = txs ++ [pe] := by
              rw [smElemStep, hk]
            rw [hunf]
            refine ⟨nodupElem_append_single hnt ?_, wfArrB_append_single hwt hwp2.1⟩
            intro kv hkv
            rw [hk] at hkv
            cases hkv
          | some kv =>
            cases hfind : lookupElem txs kv with
            | some te =>
              have hunf : smElemStep txs pe = setElem txs kv (smMerge te pe) := by
                rw [smElemStep, hk]
                show (match lookupElem txs kv with
                      | some te => setElem txs kv (smMerge te pe)
                      | none => txs ++ [pe]) = setElem txs kv (smMerge te pe)
                rw [hfind]
              rw [hunf]
              have hte : wfV te = true := wfArrB_lookupElem hwt hfind
              have hwm : wfV (smMerge te pe) = true :=
                (ih (sizeOf (pe :: rest)) hp).1 pe hpelt te hte hwp2.1
              have hkm : elemKey (smMerge te pe) = some kv :=
                elemKey_smMerge hk hwp2.1 te
              exact ⟨nodupElem_setElem hnt hfind hkm, wfArrB_setElem hwt hwm⟩
            | none =>
              have hunf : smElemStep txs pe = txs ++ [pe] := by
                rw [smElemStep, hk]
                show (match lookupElem txs kv with
                      | some te => setElem txs kv (smMerge te pe)
                      | none => txs ++ [pe]) = txs ++ [pe]
                rw [hfind]
              rw [hunf]
              refine ⟨nodupElem_append_single hnt ?_, wfArrB_append_single hwt hwp2.1⟩
              intro kv2 hkv2
              rw [hk] at hkv2
              cases hkv2
              exact lookupElem_none_elemMem.mp hfind
        have hrec := (ih (sizeOf (pe :: rest)) hp).2.2 rest hrest_lt
          (smElemStep txs pe) hstep.1 hstep.2 hnp2 hwp2.2
        simpa [smMergeList] using hrec

theorem wf_smMerge {tv pv : Value} (hwt : wfV tv = true) (hwp : wfV pv = true) :
    wfV (smMerge tv pv) = true :=
  (wf_smMerge_all (sizeOf pv + 1)).1 pv (Nat.lt_succ_self _) tv hwt hwp

theorem wf_smMergeFields {t p : List (String × Value)}
    (hnt : nodupKeysB t = true) (hwt : wfFieldsB t = true)
    (hnp : nodupKeysB p = true) (hwp : wfFieldsB p = true) :
    nodupKeysB (smMergeFields t p) = true ∧ wfFieldsB (smMergeFields t p) = true :=
  (wf_smMerge_all (sizeOf p + 1)).2.1 p (Nat.lt_succ_self _) t hnt hwt hnp hwp

theorem treeKeep_skip {k : String} (pv : Value) (prest : List (String × Value))
    {t : List (String × Value)} (h : keyMem k t = false) :
    treeKeep t ((k, pv) :: prest) = treeKeep t prest := by
  induction t with
  | nil => simp [treeKeep]
  | cons kv trest ih =>
    obtain ⟨k2, tv⟩ := kv
    simp only [keyMem, Bool.or_eq_false_iff] at h
    have hne : ¬(k = k2) := by
      intro hh
      have h1 := h.1
      simp [hh] at h1
    simp only [treeKeep]
    rw [show lookupF ((k, pv) :: prest) k2 = lookupF prest k2 by simp [lookupF, hne]]
    rw [ih h.2]

theorem treeKeep_erase_null {k : String} (prest : List (String × Value))
    {t : List (String × Value)} :
    treeKeep t ((k, Value.null) :: prest) = treeKeep (eraseF t k) prest := by
  induction t with
  | nil => simp [treeKeep, eraseF]
  | cons kv trest ih =>
    obtain ⟨k2, tv⟩ := kv
    by_cases h2 : k2 = k
    · have hl : lookupF ((k, Value.null) :: prest) k2 = some Value.null := by
        simp [lookupF, h2]
      rw [show eraseF ((k2, tv) :: trest) k = eraseF trest k by
        simp [eraseF, List.filter_cons, h2]]
      simp only [treeKeep]
      rw [hl]
      simpa [isNull] using ih
    · have hne : ¬(k = k2) := fun hh => h2 hh.symm
      have hl : lookupF ((k, Value.null) :: prest) k2 = lookupF prest k2 := by
        simp [lookupF, hne]
      rw [show eraseF ((k2, tv) :: trest) k = (k2, tv) :: eraseF trest k by
        simp [eraseF, List.filter_cons, h2]]
      simp only [treeKeep]
      rw [hl, ih]

theorem addNew_erase_null {k : String} {t prest : List (String × Value)}
    (h : keyMem k prest = false) :
    addNewFields t ((k, Value.null) :: prest) = addNewFields (eraseF t k) prest := by
  simp only [addNewFields, List.filter_cons]
  rw [if_neg (by simp [isNull])]
  apply List.filter_congr
  intro kv hkv
  have hne : ¬(kv.1 = k) := keyMem_false_ne h kv hkv
  rw [lookupF_eraseF_ne hne]

theorem addNew_cons_newkey {k : String} {v : Value} {t prest : List (String × Value)}
    (hnull : isNull v = false) (hl : lookupF t k = none) :
    addNewFields t ((k, v) :: prest) = (k, v) :: addNewFields t prest := by
  simp only [addNewFields, List.filter_cons]
  rw [if_pos (by simp [hnull, hl])]

theorem addNew_append_newkey {k : String} {v : Value} {t prest : List (String × Value)}
    (h : keyMem k prest = false) :
    addNewFields (t ++ [(k, v)]) prest = addNewFields t prest := by
  apply List.filter_congr
  intro kv hkv
  have hne : ¬(kv.1 = k) := keyMem_false_ne h kv hkv
  have hne2 : ¬(k = kv.1) := fun hh => hne hh.symm
  rw [lookupF_append]
  cases hc : lookupF t kv.1 with
  | none => simp [hc, lookupF, hne2]
  | some u => simp [hc]

theorem treeKeep_append_left (a b p : List (String × Value)) :
    treeKeep (a ++ b) p = treeKeep a p ++ treeKeep b p := by
  induction a with
  | nil => simp [treeKeep]
  | cons kv arest ih =>
    obtain ⟨k2, tv⟩ := kv
    simp only [List.cons_append, treeKeep, ih, List.append_assoc]

theorem treeKeep_singleton_new {k : String} {v : Value} {prest : List (String × Value)}
    (h : lookupF prest k = none) : treeKeep [(k, v)] prest = [(k, v)] := by
  simp only [treeKeep]
  rw [h]
  simp [treeKeep]

theorem addNew_setF {k : String} {v2 : Value} {t prest : List (String × Value)}
    (h : keyMem k prest = false) :
    addNewFields (setF t k v2) prest = addNewFields t prest := by
  apply List.filter_congr
  intro kv hkv
  have hne : ¬(kv.1 = k) := keyMem_false_ne h kv hkv
  rw [lookupF_setF_ne _ _ _ _ (fun hh => hne hh.symm)]

theorem addNew_cons_oldkey {k : String} {v old : Value} {t prest : List (String × Value)}
    (hl : lookupF t k = some old) :
    addNewFields t ((k, v) :: prest) = addNewFields t prest := by
  simp only [addNewFields, List.filter_cons]
  rw [if_neg (by simp [hl])]

theorem treeKeep_setF_old {k : String} {v old : Value} :
    ∀ {t : List (String × Value)} {prest : List (String × Value)},
    lookupF t k = some old → isNull v = false → lookupF prest k = none →
    nodupKeysB t = true → treeMerge old v = smMerge old v →
    treeKeep t ((k, v) :: prest) = treeKeep (setF t k (smMerge old v)) prest := by
  intro t
  induction t with
  | nil => intro prest hl; simp [lookupF] at hl
  | cons kv trest ih =>
    intro prest hl hnull hpm hnt heq
    obtain ⟨k2, tv⟩ := kv
    simp only [nodupKeysB, Bool.and_eq_true, Bool.not_eq_true'] at hnt
    by_cases h2 : k2 = k
    · have htv : tv = old := by
        rw [← h2] at hl
        simpa [lookupF] using hl
      have hlp : lookupF ((k, v) :: prest) k2 = some v := by
        simp [lookupF, h2]
      rw [show setF ((k2, tv) :: trest) k (smMerge old v)
          = (k, smMerge old v) :: trest by simp [setF, h2]]
      simp only [treeKeep]
      rw [hlp, hpm]
      rw [treeKeep_skip v prest (h2 ▸ hnt.1)]
      simp [hnull, htv, heq, h2]
    · have hne : ¬(k = k2) := fun hh => h2 hh.symm
      have hlp : lookupF ((k, v) :: prest) k2 = lookupF prest k2 := by
        simp [lookupF, hne]
      have hl2 : lookupF trest k = some old := by
        simpa [lookupF, h2] using hl
      rw [show setF ((k2, tv) :: trest) k (smMerge old v)
          = (k2, tv) :: setF trest k (smMerge old v) by simp [setF, h2]]
      simp only [treeKeep]
      rw [hlp, ih hl2 hnull hpm hnt.2 heq]

theorem treeKeepList_nil (txs : List Value) : treeKeepList txs [] = txs := by
  induction txs with
  | nil => simp [treeKeepList]
  | cons tx rest ih =>
    cases hkx : elemKey tx with
    | none =>
      simp only [treeKeepList, hkx]
      simpa using ih
    | some kv =>
      simp only [treeKeepList, hkx]
      rw [show lookupElem [] kv = none from rfl]
      simpa using ih

theorem treeKeepList_skip_keyed {kv : SKey} {pe : Value} (prest : List Value)
    {txs : List Value} (hk : elemKey pe = some kv) (h : elemMem kv txs = false) :
    treeKeepList txs (pe :: prest) = treeKeepList txs prest := by
  induction txs with
  | nil => simp [treeKeepList]
  | cons tx rest ih =>
    simp only [elemMem, Bool.or_eq_false_iff] at h
    cases hkx : elemKey tx with
    | none =>
      simp only [treeKeepList, hkx]
      rw [ih h.2]
    | some ktx =>
      have hne : ¬(ktx = kv) := by
        have h1 := h.1
        rw [hkx] at h1
        simpa using h1
      have hne2 : ¬(elemKey pe = some ktx) := by
        rw [hk]
        intro hh
        have hh2 : kv = ktx := by simpa using hh
        exact hne hh2.symm
      have hlp : lookupElem (pe :: prest) ktx = lookupElem prest ktx := by
        simp [lookupElem, hne2]
      simp only [treeKeepList, hkx]
      rw [hlp, ih h.2]

theorem treeKeepList_skip_unkeyed {pe : Value} (prest : List Value)
    {txs : List Value} (hk : elemKey pe = none) :
    treeKeepList txs (pe :: prest) = treeKeepList txs prest := by
  induction txs with
  | nil => simp [treeKeepList]
  | cons tx rest ih =>
    cases hkx : elemKey tx with
    | none =>
      simp only [treeKeepList, hkx]
      rw [ih]
    | some ktx =>
      have hne2 : ¬(elemKey pe = some ktx) := by
        rw [hk]
        simp
      have hlp : lookupElem (pe :: prest) ktx = lookupElem prest ktx := by
        simp [lookupElem, hne2]
      simp only [treeKeepList, hkx]
      rw [hlp, ih]

theorem treeKeepList_append_left (a b pxs : List Value) :
    treeKeepList (a ++ b) pxs = treeKeepList a pxs ++ treeKeepList b pxs := by
  induction a with
  | nil => simp [treeKeepList]
  | cons tx arest ih =>
    simp only [List.cons_append, treeKeepList, ih, List.append_assoc]

theorem treeKeepList_single_unkeyed {pe : Value} (prest : List Value)
    (hk : elemKey pe = none) : treeKeepList [pe] prest = [pe] := by
  simp only [treeKeepList, hk]
  simp [treeKeepList]

theorem treeKeepList_single_absent {pe : Value} {kv : SKey} {prest : List Value}
    (hk : elemKey pe = some kv) (habs : lookupElem prest kv = none) :
    treeKeepList [pe] prest = [pe] := by
  simp only [treeKeepList, hk]
  rw [habs]
  simp [treeKeepList]

theorem addNewElems_cons_unkeyed {pe : Value} {txs prest : List Value}
    (hk : elemKey pe = none) :
    addNewElems txs (pe :: prest) = pe :: addNewElems txs prest := by
  simp only [addNewElems, List.filter_cons]
  rw [if_pos (by simp [hk])]

theorem addNewElems_cons_fresh {pe : Value} {kv : SKey} {txs prest : List Value}
    (hk : elemKey pe = some kv) (h : elemMem kv txs = false) :
    addNewElems txs (pe :: prest) = pe :: addNewElems txs prest := by
  simp only [addNewElems, List.filter_cons]
  rw [if_pos (by simp [hk, h])]

theorem addNewElems_cons_present {pe : Value} {kv : SKey} {txs prest : List Value}
    (hk : elemKey pe = some kv) (h : elemMem kv txs = true) :
    addNewElems txs (pe :: prest) = addNewElems txs prest := by
  simp only [addNewElems, List.filter_cons]
  rw [if_neg (by simp [hk, h])]

theorem addNewElems_append_fresh {pe : Value} {txs prest : List Value}
    (hfresh : ∀ kv, elemKey pe = some kv → elemMem kv prest = false) :
    addNewElems (txs ++ [pe]) prest = addNewElems txs prest := by
  apply List.filter_congr
  intro qe hqe
  cases hkq : elemKey qe with
  | none => simp [hkq]
  | some kq =>
    have hone : elemMem kq [pe] = false := by
      cases hkp : elemKey pe with
      | none => simp [elemMem, hkp]
      | some kp =>
        have h2 := hfresh kp hkp
        have h3 := elemMem_false_ne h2 qe hqe
        rw [hkq] at h3
        simp only [elemMem, hkp, Bool.or_false, beq_eq_false_iff_ne, ne_eq,
          Option.some.injEq]
        intro hh
        exact h3 (by rw [hh])
    simp [hkq, elemMem_append, hone]

theorem addNewElems_setElem {txs prest : List Value} {kv : SKey} {te v2 : Value}
    (hfind : lookupElem txs kv = some te) (hk2 : elemKey v2 = some kv) :
    addNewElems (setElem txs kv v2) prest = addNewElems txs prest := by
  apply List.filter_congr
  intro qe hqe
  cases hkq : elemKey qe with
  | none => simp [hkq]
  | some kq => simp [hkq, elemMem_setElem hfind hk2]

theorem treeKeepList_setElem_old {kv : SKey} {pe te : Value} {prest : List Value}
    (hk : elemKey pe = some kv) (hpm : lookupElem prest kv = none)
    (heq : treeMerge te pe = smMerge te pe)
    (hkm : elemKey (smMerge te pe) = some kv) :
    ∀ {txs : List Value}, lookupElem txs kv = some te → nodupElemKeysB txs = true →
      treeKeepList txs (pe :: prest)
        = treeKeepList (setElem txs kv (smMerge te pe)) prest := by
  intro txs
  induction txs with
  | nil =>
    intro hfind _
    simp [lookupElem] at hfind
  | cons tx rest ih =>
    intro hfind hnd
    simp only [nodupElemKeysB, Bool.and_eq_true] at hnd
    by_cases h : elemKey tx = some kv
    · have hte : tx = te := by
        simpa [lookupElem, h] using hfind
      have hmem : elemMem kv rest = false := by
        have h1 := hnd.1
        rw [h] at h1
        simpa using h1
      have hset : setElem (tx :: rest) kv (smMerge te pe) = smMerge te pe :: rest := by
        simp [setElem, h]
      rw [hset]
      have hlp : lookupElem (pe :: prest) kv = some pe := by
        simp [lookupElem, hk]
      simp only [treeKeepList, h, hkm]
      rw [hlp, hpm]
      rw [treeKeepList_skip_keyed prest hk hmem]
      simp [hte, heq]
    · have hfind2 : lookupElem rest kv = some te := by
        simpa [lookupElem, h] using hfind
      have hset : setElem (tx :: rest) kv (smMerge te pe)
          = tx :: setElem rest kv (smMerge te pe) := by
        simp [setElem, h]
      rw [hset]
      cases hkx : elemKey tx with
      | none =>
        simp only [treeKeepList, hkx]
        rw [ih hfind2 hnd.2]
      | some ktx =>
        have hne2 : ¬(elemKey pe = some ktx) := by
          rw [hk]
          intro hh
          have hh2 : kv = ktx := by simpa using hh
          apply h
          rw [hkx, hh2]
        have hlp : lookupElem (pe :: prest) ktx = lookupElem prest ktx := by
          simp [lookupElem, hne2]
        simp only [treeKeepList, hkx]
        rw [hlp, ih hfind2 hnd.2]

theorem treeMerge_eq_smMerge_all (n : Nat) :
    (∀ pv : Value, sizeOf pv < n → ∀ tv : Value, wfV tv = true → wfV pv = true →
      treeMerge tv pv = smMerge tv pv)
    ∧ (∀ p : List (String × Value), sizeOf p < n →
      ∀ t : List (String × Value), nodupKeysB t = true → wfFieldsB t = true →
        nodupKeysB p = true → wfFieldsB p = true →
        treeMergeFields t p = smMergeFields t p)
    ∧ (∀ pxs : List Value, sizeOf pxs < n →
      ∀ txs : List Value, nodupElemKeysB txs = true → wfArrB txs = true →
        nodupElemKeysB pxs = true → wfArrB pxs = true →
        treeMergeList txs pxs = smMergeList txs pxs) := by
  induction n using Nat.strong_induction_on with
  | _ n ih =>
    refine ⟨?_, ?_, ?_⟩
    · intro pv hpv tv hwt hwp
      cases pv with
      | obj pfs =>
        cases tv with
        | obj tfs =>
          have hlt : sizeOf pfs < sizeOf (Value.obj pfs) := by
            simp only [Value.obj.sizeOf_spec]
            omega
          have hwt2 : nodupKeysB tfs = true ∧ wfFieldsB tfs = true := by
            simpa [wfV, Bool.and_eq_true] using hwt
          have hwp2 : nodupKeysB pfs = true ∧ wfFieldsB pfs = true := by
            simpa [wfV, Bool.and_eq_true] using hwp
          have hfld := (ih (sizeOf (Value.obj pfs)) hpv).2.1 pfs hlt tfs
            hwt2.1 hwt2.2 hwp2.1 hwp2.2
          simp [treeMerge, smMerge, hfld]
        | null => simp [treeMerge, smMerge]
        | bool b => simp [treeMerge, smMerge]
        | num m => simp [treeMerge, smMerge]
        | str s => simp [treeMerge, smMerge]
        | arr xs => simp [treeMerge, smMerge]
      | null => cases tv <;> simp [treeMerge, smMerge]
      | bool b => cases tv <;> simp [treeMerge, smMerge]
      | num m => cases tv <;> simp [treeMerge, smMerge]
      | str s => cases tv <;> simp [treeMerge, smMerge]
      | arr pxs =>
        cases tv with
        | arr txs =>
          cases hg1 : keyedList txs with
          | false => simp [treeMerge, smMerge, hg1]
          | true =>
            cases hg2 : keyedList pxs with
            | false => simp [treeMerge, smMerge, hg1, hg2]
            | true =>
              have hlt : sizeOf pxs < sizeOf (Value.arr pxs) := by
                simp only [Value.arr.sizeOf_spec]
                omega
              have hwt2 : nodupElemKeysB txs = true ∧ wfArrB txs = true := by
                simpa [wfV, Bool.and_eq_true] using hwt
              have hwp2 : nodupElemKeysB pxs = true ∧ wfArrB pxs = true := by
                simpa [wfV, Bool.and_eq_true] using hwp
              have hlst := (ih (sizeOf (Value.arr pxs)) hpv).2.2 pxs hlt txs
                hwt2.1 hwt2.2 hwp2.1 hwp2.2
              simp [treeMerge, smMerge, hg1, hg2, hlst]
        | null => simp [treeMerge, smMerge]
        | bool b => simp [treeMerge, smMerge]
        | num m => simp [treeMerge, smMerge]
        | str s => simp [treeMerge, smMerge]
        | obj fs => simp [treeMerge, smMerge]
    · intro p hp t hnt hwt hnp hwp
      cases p with
      | nil =>
        rw [treeMergeFields_nil_patch]
        simp [smMergeFields]
      | cons kv rest =>
        obtain ⟨k, v⟩ := kv
        have hnp2 : keyMem k rest = false ∧ nodupKeysB rest = true := by
          simpa [nodupKeysB, Bool.and_eq_true, Bool.not_eq_true'] using hnp
        have hwp2 : wfV v = true ∧ wfFieldsB rest = true := by
          simpa [wfFieldsB, Bool.and_eq_true] using hwp
        have hpm : lookupF rest k = none := lookupF_none_keyMem.mpr hnp2.1
        have hrest_lt : sizeOf rest < sizeOf ((k, v) :: rest) := by
          simp only [List.cons.sizeOf_spec]
          omega
        have hRHS : smMergeFields t ((k, v) :: rest)
            = smMergeFields (smMergeStep t k v) rest := by
          simp [smMergeFields]
        rw [hRHS]
        cases hnull : isNull v with
        | true =>
          have hv : v = Value.null := by
            cases v <;> first | rfl | simp [isNull] at hnull
          subst hv
          have hstep : smMergeStep t k Value.null = eraseF t k := by
            simp [smMergeStep, isNull]
          rw [hstep]
          have hLHS : treeMergeFields t ((k, Value.null) :: rest)
              = treeMergeFields (eraseF t k) rest := by
            simp only [treeMergeFields]
            rw [treeKeep_erase_null rest, addNew_erase_null hnp2.1]
          rw [hLHS]
          exact (ih _ hp).2.1 rest hrest_lt (eraseF t k)
            (nodupKeysB_eraseF k hnt) (wfFieldsB_eraseF k hwt) hnp2.2 hwp2.2
        | false =>
          cases hl : lookupF t k with
          | none =>
            have hstep : smMergeStep t k v = t ++ [(k, v)] := by
              simp [smMergeStep, hnull, hl]
            rw [hstep]
            have hkmt : keyMem k t = false := lookupF_none_keyMem.mp hl
            have hLHS : treeMergeFields t ((k, v) :: rest)
                = treeMergeFields (t ++ [(k, v)]) rest := by
              simp only [treeMergeFields]
              rw [treeKeep_skip v rest hkmt, addNew_cons_newkey hnull hl]
              rw [treeKeep_append_left, treeKeep_singleton_new hpm,
                addNew_append_newkey hnp2.1]
              simp
            rw [hLHS]
            exact (ih _ hp).2.1 rest hrest_lt (t ++ [(k, v)])
              (nodupKeysB_append_single v hl hnt) (wfFieldsB_append_single hwt hwp2.1)
              hnp2.2 hwp2.2
          | some old =>
            have hvlt : sizeOf v < sizeOf ((k, v) :: rest) := by
              simp only [List.cons.sizeOf_spec, Prod.mk.sizeOf_spec]
              omega
            have hold : wfV old = true := wfFieldsB_lookup hwt hl
            have heq : treeMerge old v = smMerge old v :=
              (ih _ hp).1 v hvlt old hold hwp2.1
            have hstep : smMergeStep t k v = setF t k (smMerge old v) := by
              simp [smMergeStep, hnull, hl]
            rw [hstep]
            have hLHS : treeMergeFields t ((k, v) :: rest)
                = treeMergeFields (setF t k (smMerge old v)) rest := by
              simp only [treeMergeFields]
              rw [treeKeep_setF_old hl hnull hpm hnt heq]
              rw [addNew_cons_oldkey hl, addNew_setF hnp2.1]
            rw [hLHS]
            exact (ih _ hp).2.1 rest hrest_lt (setF t k (smMerge old v))
              (nodupKeysB_setF _ hnt) (wfFieldsB_setF hwt (wf_smMerge hold hwp2.1))
              hnp2.2 hwp2.2
    · intro pxs hp txs hnt hwt hnp hwp
      cases pxs with
      | nil =>
        rw [treeMergeList, treeKeepList_nil]
        simp [smMergeList, addNewElems]
      | cons pe prest =>
        have hnpSplit := hnp
        simp only [nodupElemKeysB, Bool.and_eq_true] at hnpSplit
        have hwp2 : wfV pe = true ∧ wfArrB prest = true := by
          simpa [wfArrB, Bool.and_eq_true] using hwp
        have hprest_lt : sizeOf prest < sizeOf (pe :: prest) := by
          simp only [List.cons.sizeOf_spec]
          omega
        have hpelt : sizeOf pe < sizeOf (pe :: prest) := by
          simp only [List.cons.sizeOf_spec]
          omega
        have hRHS : smMergeList txs (pe :: prest)
            = smMergeList (smElemStep txs pe) prest := by
          simp [smMergeList]
        rw [hRHS]
        cases hk : elemKey pe with
        | none =>
          have hunf : smElemStep txs pe = txs ++ [pe] := by
            rw [smElemStep, hk]
          rw [hunf]
          have hLHS : treeMergeList txs (pe :: prest)
              = treeMergeList (txs ++ [pe]) prest := by
            rw [treeMergeList, treeMergeList]
            rw [treeKeepList_skip_unkeyed prest hk, addNewElems_cons_unkeyed hk]
            rw [treeKeepList_append_left, treeKeepList_single_unkeyed prest hk]
            rw [addNewElems_append_fresh
              (fun kv2 hkv2 => by rw [hk] at hkv2; exact Option.noConfusion hkv2)]
            simp
          rw [hLHS]
          exact (ih _ hp).2.2 prest hprest_lt (txs ++ [pe])
            (nodupElem_append_single hnt
              (fun kv2 hkv2 => by rw [hk] at hkv2; exact Option.noConfusion hkv2))
            (wfArrB_append_single hwt hwp2.1) hnpSplit.2 hwp2.2
        | some kv =>
          have hfreshp : elemMem kv prest = false := by
            have h1 := hnpSplit.1
            rw [hk] at h1
            simpa using h1
          have hpm : lookupElem prest kv = none :=
            lookupElem_none_elemMem.mpr hfreshp
          cases hfind : lookupElem txs kv with
          | none =>
            have hmemt : elemMem kv txs = false := lookupElem_none_elemMem.mp hfind
            have hunf : smElemStep txs pe = txs ++ [pe] := by
              rw [smElemStep, hk]
              show (match lookupElem txs kv with
                    | some te => setElem txs kv (smMerge te pe)
                    | none => txs ++ [pe]) = txs ++ [pe]
              rw [hfind]
            rw [hunf]
            have hLHS : treeMergeList txs (pe :: prest)
                = treeMergeList (txs ++ [pe]) prest := by
              rw [treeMergeList, treeMergeList]
              rw [treeKeepList_skip_keyed prest hk hmemt,
                addNewElems_cons_fresh hk hmemt]
              rw [treeKeepList_append_left, treeKeepList_single_absent hk hpm]
              rw [addNewElems_append_fresh
                (fun kv2 hkv2 => by
                  rw [hk] at hkv2
                  exact (Option.some.inj hkv2) ▸ hfreshp)]
              simp
            rw [hLHS]
            exact (ih _ hp).2.2 prest hprest_lt (txs ++ [pe])
              (nodupElem_append_single hnt
                (fun kv2 hkv2 => by
                  rw [hk] at hkv2
                  exact (Option.some.inj hkv2) ▸ hmemt))
              (wfArrB_append_single hwt hwp2.1) hnpSplit.2 hwp2.2
          | some te =>
            have hmemt : elemMem kv txs = true := by
              cases hmm : elemMem kv txs with
              | true => rfl
              | false =>
                rw [lookupElem_none_elemMem.mpr hmm] at hfind
                cases hfind
            have hte : wfV te = true := wfArrB_lookupElem hwt hfind
            have heq : treeMerge te pe = smMerge te pe :=
              (ih _ hp).1 pe hpelt te hte hwp2.1
            have hwm : wfV (smMerge te pe) = true := wf_smMerge hte hwp2.1
            have hkm : elemKey (smMerge te pe) = some kv :=
              elemKey_smMerge hk hwp2.1 te
            have hunf : smElemStep txs pe = setElem txs kv (smMerge te pe) := by
              rw [smElemStep, hk]
              show (match lookupElem txs kv with
                    | some te => setElem txs kv (smMerge te pe)
                    | none => txs ++ [pe]) = setElem txs kv (smMerge te pe)
              rw [hfind]
            rw [hunf]
            have hLHS : treeMergeList txs (pe :: prest)
                = treeMergeList (setElem txs kv (smMerge te pe)) prest := by
              rw [treeMergeList, treeMergeList]
              rw [treeKeepList_setElem_old hk hpm heq hkm hfind hnt]
              rw [addNewElems_cons_present hk hmemt, addNewElems_setElem hfind hkm]
            rw [hLHS]
            exact (ih _ hp).2.2 prest hprest_lt (setElem txs kv (smMerge te pe))
              (nodupElem_setElem hnt hfind hkm) (wfArrB_setElem hwt hwm)
              hnpSplit.2 hwp2.2

/-- C7: on well-formed field-trees (every map level with unique keys,
the data-model invariant), applying a strategic-merge patch under the
legacy typed-object strategy and under the structured-tree strategy
produce identical observable results on the resource field-tree,
whatever the yamlSupport flag selects. -/
theorem applySMPatch_strategy_equivalence (r patch : Resource) (ys1 ys2 : Bool)
    (hr : wfV (Value.obj r.fields) = true) (hp : wfV (Value.obj patch.fields) = true) :
    applySMPatch ys1 r patch = applySMPatch ys2 r patch := by
  have hnr : nodupKeysB r.fields = true ∧ wfFieldsB r.fields = true := by
    simpa [wfV, Bool.and_eq_true] using hr
  have hnp : nodupKeysB patch.fields = true ∧ wfFieldsB patch.fields = true := by
    simpa [wfV, Bool.and_eq_true] using hp
  have heq : treeMergeFields r.fields patch.fields
      = smMergeFields r.fields patch.fields :=
    (treeMerge_eq_smMerge_all (sizeOf patch.fields + 1)).2.1 patch.fields
      (Nat.lt_succ_self _) r.fields hnr.1 hnr.2 hnp.1 hnp.2
  cases ys1 <;> cases ys2 <;> simp [applySMPatch, heq]

/-- Witness for C7 on a concrete resource and patch exercising nested
merge, delete, append and the keyed-list element-wise merge (one matched
element merged by merge key, one fresh element appended). -/
theorem applySMPatch_strategy_equivalence_witness :
    (wfV (Value.obj (Resource.mk [("a", Value.num 1),
        ("b", Value.obj [("c", Value.num 2)]),
        ("cs", Value.arr [Value.obj [("name", Value.str "app"),
          ("img", Value.str "v1")]])]).fields) = true)
    ∧ (wfV (Value.obj (Resource.mk [("b", Value.obj [("c", Value.null),
        ("d", Value.num 4)]),
        ("cs", Value.arr [Value.obj [("name", Value.str "app"),
          ("img", Value.str "v2")],
          Value.obj [("name", Value.str "sc"), ("img", Value.str "s1")]]),
        ("e", Value.num 5)]).fields) = true)
    ∧ (applySMPatch true (Resource.mk [("a", Value.num 1),
        ("b", Value.obj [("c", Value.num 2)]),
        ("cs", Value.arr [Value.obj [("name", Value.str "app"),
          ("img", Value.str "v1")]])])
        (Resource.mk [("b", Value.obj [("c", Value.null), ("d", Value.num 4)]),
          ("cs", Value.arr [Value.obj [("name", Value.str "app"),
            ("img", Value.str "v2")],
            Value.obj [("name", Value.str "sc"), ("img", Value.str "s1")]]),
          ("e", Value.num 5)])
      = applySMPatch false (Resource.mk [("a", Value.num 1),
          ("b", Value.obj [("c", Value.num 2)]),
          ("cs", Value.arr [Value.obj [("name", Value.str "app"),
            ("img", Value.str "v1")]])])
          (Resource.mk [("b", Value.obj [("c", Value.null), ("d", Value.num 4)]),
            ("cs", Value.arr [Value.obj [("name", Value.str "app"),
              ("img", Value.str "v2")],
              Value.obj [("name", Value.str "sc"), ("img", Value.str "s1")]]),
            ("e", Value.num 5)])) := by
  refine ⟨?_, ?_, ?_⟩
  · simp [wfV, wfFieldsB, nodupKeysB, keyMem, wfArrB, nodupElemKeysB, elemMem,
      elemKey, lookupF, skeyOf, mergeKey]
  · simp [wfV, wfFieldsB, nodupKeysB, keyMem, wfArrB, nodupElemKeysB, elemMem,
      elemKey, lookupF, skeyOf, mergeKey]
  · exact applySMPatch_strategy_equivalence _ _ true false
      (by simp [wfV, wfFieldsB, nodupKeysB, keyMem, wfArrB, nodupElemKeysB,
        elemMem, elemKey, lookupF, skeyOf, mergeKey])
      (by simp [wfV, wfFieldsB, nodupKeysB, keyMem, wfArrB, nodupElemKeysB,
        elemMem, elemKey, lookupF, skeyOf, mergeKey])

end Kustomize
